import Mathlib

/-!
# genghtree: flat-to-tree construction and tree rendering

A shallow embedding of `internal/domain`, `internal/app` and `internal/render`.

Go pointers `*Node` are addresses into an explicit heap (a list of node records, an
address being an index); `nil` is `none`.  Every function that mutates a node takes the
heap and returns the new heap.  A `*GitBlob` is modelled by the record it points to
(blobs are never mutated after the fetch).
-/

namespace Genghtree

/-! ## internal/domain -/

/-- One record of the GitHub tree listing (`domain.GitBlob`); `Typ` is the Go field
`Type`, which is a reserved word here. -/
structure GitBlob where
  Path : String
  Typ : String
  Size : Int
  Sha : String
  Mode : String
  URL : String
deriving DecidableEq, Repr, Inhabited

/-- The response of the Trees API (`domain.TreeResponse`). -/
structure TreeResponse where
  Sha : String
  URL : String
  Tree : List GitBlob
  Truncated : Bool
deriving DecidableEq, Repr, Inhabited

/-- One node of the directory tree (`domain.Node`).  `Children` is the slice of child
pointers, `childMap` the Go map from name to child pointer, kept as an association list
whose most recent binding of a key comes first. -/
structure Node where
  Name : String
  Path : String
  IsDir : Bool
  Children : List Nat
  Meta : Option GitBlob
  parent : Option Nat
  childMap : List (String × Nat)
deriving DecidableEq, Repr, Inhabited

/-- The heap of node records; the pointer `p` denotes the `p`-th record. -/
abbrev Heap := List Node

/-- Dereference a pointer. -/
def read (h : Heap) (p : Nat) : Node := h.getD p default

/-- Store a record through a pointer. -/
def write (h : Heap) (p : Nat) (r : Node) : Heap := h.set p r

/-- The constructor `domain.NewNode`: allocates a record with empty `Children` and
`childMap`, nil `Meta` and `parent`, and returns the new heap with the fresh pointer. -/
def NewNode (h : Heap) (name path : String) (isDir : Bool) : Heap × Nat :=
  (h ++ [{ Name := name, Path := path, IsDir := isDir, Children := [], Meta := none,
           parent := none, childMap := [] }], h.length)

/-- The method `(*Node).AddChild`: sets the child's parent, appends the child to
`Children`, and binds the child's name in `childMap`. -/
def AddChild (h : Heap) (n child : Nat) : Heap :=
  let h1 := write h child { read h child with parent := some n }
  let h2 := write h1 n { read h1 n with Children := (read h1 n).Children ++ [child] }
  write h2 n { read h2 n with childMap := ((read h2 child).Name, child) :: (read h2 n).childMap }

/-- The method `(*Node).GetChild`: the map lookup `n.childMap[name]` (`none` is nil). -/
def GetChild (h : Heap) (n : Nat) (name : String) : Option Nat :=
  (read h n).childMap.lookup name

/-! ## strings.Split and strings.Join with the separator "/" -/

/-- Split a character sequence at every occurrence of `sep`; the result is never empty. -/
def splitChars (sep : Char) : List Char → List (List Char)
  | [] => [[]]
  | c :: cs =>
    if c = sep then [] :: splitChars sep cs
    else match splitChars sep cs with
      | [] => [[c]]
      | p :: ps => (c :: p) :: ps

/-- The call `strings.Split(s, "/")`. -/
def Split (s : String) : List String := (splitChars '/' s.data).map String.mk

/-- The call `strings.Join(elems, "/")`. -/
def Join (elems : List String) : String := String.intercalate "/" elems

/-! ## internal/app: buildTree and insertPath -/

/-- The body of the `for i, part := range parts` loop of `insertPath`, started at index
`i` with the remaining parts; `parts` is the whole split path and `current` the node the
walk has reached. -/
def insertLoop (blob : GitBlob) (parts : List String) :
    List String → Nat → Heap → Nat → Heap
  | [], _, h, _ => h
  | part :: rest, i, h, current =>
    if part = "" then insertLoop blob parts rest (i + 1) h current
    else
      match GetChild h current part with
      | some child => insertLoop blob parts rest (i + 1) h child
      | none =>
        let isDir := blob.Typ == "tree" || decide (i < parts.length - 1)
        let fullPath := Join (parts.take (i + 1))
        let (h1, child) := NewNode h part fullPath isDir
        let h2 := if i = parts.length - 1 then write h1 child { read h1 child with Meta := some blob }
                  else h1
        let h3 := AddChild h2 current child
        insertLoop blob parts rest (i + 1) h3 child

/-- The method `(*App).insertPath`. -/
def insertPath (h : Heap) (root : Nat) (blob : GitBlob) : Heap :=
  let parts := Split blob.Path
  insertLoop blob parts parts 0 h root

/-- The method `(*App).buildTree`, run on an empty heap: returns the heap and the root
pointer. -/
def buildTree (blobs : List GitBlob) (repoName : String) : Heap × Nat :=
  let (h, root) := NewNode [] repoName "" true
  (blobs.foldl (fun h blob => insertPath h root blob) h, root)

/-! ## Paths of a tree -/

/-- The non-empty "/"-separated segments of a path, in order. -/
def segments (p : String) : List String := (Split p).filter (fun x => x ≠ "")

/-- The nodes reached from `r` by the child-name sequence `s`: at each step every member
of `Children` whose `Name` is the next name is followed. -/
def descend (h : Heap) : Nat → List String → List Nat
  | r, [] => [r]
  | r, x :: s => ((read h r).Children.filter (fun c => (read h c).Name = x)).flatMap
      (fun c => descend h c s)

/-- The walk that `insertPath` performs: follow `GetChild` for each name in turn. -/
def walk (h : Heap) : Nat → List String → Option Nat
  | n, [] => some n
  | n, x :: s =>
    match GetChild h n x with
    | some c => walk h c s
    | none => none

/-- The first entry, in list order, whose segment sequence starts with `s`. -/
def firstThrough (blobs : List GitBlob) (s : List String) : Option GitBlob :=
  blobs.find? (fun e => s.isPrefixOf (segments e.Path))

/-- Whether the sequence `t` of non-empty parts exhausts the raw part list `rest`: `t` is
all the non-empty parts of `rest` and the last part of `rest` is not empty. -/
def finalIn (rest : List String) (t : List String) : Bool :=
  decide (rest.filter (fun x => x ≠ "") = t) && decide (rest.getLast? ≠ some "")

/-- Whether the entry's path ends exactly at the node with name sequence `s`: `s` is its
whole segment sequence and the path has a non-empty last part (no trailing slash). -/
def endsAt (e : GitBlob) (s : List String) : Bool := finalIn (Split e.Path) s

/-- The raw parts of `rest` up to and including the part that completes the sequence `t`
of non-empty parts. -/
def rawTake : List String → List String → List String
  | _, [] => []
  | [], _ :: _ => []
  | p :: rest, x :: t => if p = "" then p :: rawTake rest (x :: t) else p :: rawTake rest t

/-- The heap after `insertLoop` has created the node for `part` below `current`: the new
record is appended, and `current` has the new pointer as last child and in its map. -/
def graft (h : Heap) (current : Nat) (part path : String) (isDir : Bool)
    (m : Option GitBlob) : Heap :=
  (write h current { read h current with
      Children := (read h current).Children ++ [h.length],
      childMap := (part, h.length) :: (read h current).childMap }) ++
    [{ Name := part, Path := path, IsDir := isDir, Children := [], Meta := m,
       parent := some current, childMap := [] }]

/-- Well-formedness of a heap as a forest: children are allocated after their parent,
`childMap` agrees with `Children`, and no node is a child twice. -/
structure WF (h : Heap) : Prop where
  ranked : ∀ n c, c ∈ (read h n).Children → n < c ∧ c < h.length
  sync : ∀ n name c, GetChild h n name = some c ↔
    (c ∈ (read h n).Children ∧ (read h c).Name = name)
  oneParent : ∀ n m c, c ∈ (read h n).Children → c ∈ (read h m).Children → n = m
  nodup : ∀ n, (read h n).Children.Nodup

/-- The nodes of the tree at `r`: `r` and its descendants through `Children`. -/
inductive Reachable (h : Heap) : Nat → Nat → Prop
  | self (r : Nat) : Reachable h r r
  | child (r c m : Nat) : c ∈ (read h r).Children → Reachable h c m → Reachable h r m

/-- The subtree below `n` unfolds completely within depth `d`. -/
inductive TreeAt (h : Heap) : Nat → Nat → Prop
  | node (n d : Nat) : (∀ c ∈ (read h n).Children, TreeAt h c d) → TreeAt h n (d + 1)

/-- What an insertion leaves alone: every node of `h` keeps its fields in `h'`, and its
`Children` only grow at the end. -/
structure Frame (h h' : Heap) : Prop where
  len_le : h.length ≤ h'.length
  name : ∀ p, p < h.length → (read h' p).Name = (read h p).Name
  path : ∀ p, p < h.length → (read h' p).Path = (read h p).Path
  isDir : ∀ p, p < h.length → (read h' p).IsDir = (read h p).IsDir
  keepMeta : ∀ p, p < h.length → (read h' p).Meta = (read h p).Meta
  children : ∀ p, p < h.length → (read h p).Children <+: (read h' p).Children

/-- The effect of `insertLoop` run from heap `h` to heap `h'`, where `pre` are the parts
already consumed, `rest` the parts still to do, and `done` the names walked from `r`. -/
structure LoopPost (blob : GitBlob) (r : Nat) (h h' : Heap) (pre done rest : List String) :
    Prop where
  wf : WF h'
  frame : Frame h h'
  old_walk : ∀ s n, walk h r s = some n → walk h' r s = some n
  walk_old : ∀ s n, walk h' r s = some n → n < h.length → walk h r s = some n
  walk_new : ∀ s n, walk h' r s = some n → h.length ≤ n →
    ∃ t, t ≠ [] ∧ s = done ++ t ∧ t <+: rest.filter (fun x => x ≠ "") ∧
      t.getLast? = some (read h' n).Name ∧
      (read h' n).IsDir = (blob.Typ == "tree" || !finalIn rest t) ∧
      (read h' n).Meta = (if finalIn rest t then some blob else none) ∧
      (read h' n).Path = Join (pre ++ rawTake rest t)
  reach : ∀ t, t <+: rest.filter (fun x => x ≠ "") → (walk h' r (done ++ t)).isSome
  fresh : ∀ n, h.length ≤ n → n < h'.length → ∃ s, walk h' r s = some n

/-- What holds of the heap `buildTree` has reached after the entries `blobs`, the root
being at address 0: the walks from the root are the prefixes of the entries' segment
sequences, and a node has the fields given to it by the first entry through it. -/
structure Built (blobs : List GitBlob) (rootName : String) (h : Heap) : Prop where
  wf : WF h
  pos : 0 < h.length
  rootName : (read h 0).Name = rootName
  rootPath : (read h 0).Path = ""
  rootDir : (read h 0).IsDir = true
  rootMeta : (read h 0).Meta = none
  paths : ∀ s, s ≠ [] → ((walk h 0 s).isSome ↔ ∃ e ∈ blobs, s <+: segments e.Path)
  fields : ∀ s n, s ≠ [] → walk h 0 s = some n →
    ∃ e, firstThrough blobs s = some e ∧
      s.getLast? = some (read h n).Name ∧
      (read h n).IsDir = (e.Typ == "tree" || !endsAt e s) ∧
      (read h n).Meta = (if endsAt e s then some e else none) ∧
      (read h n).Path = Join (rawTake (Split e.Path) s)
  allReach : ∀ n, n < h.length → ∃ s, walk h 0 s = some n

/-! ## internal/render -/

def boxVertical : String := "│"
def boxHorizontal : String := "──"
def boxUpAndRight : String := "└"
def boxVerticalRight : String := "├"
def boxSpace : String := "    "
def boxVerticalSpace : String := "│   "

/-- Go's `error` values, identified by their message. -/
abbrev Error := String

/-- An `io.Writer`.  `written` holds the data of the calls of `Write` that succeeded,
`calls` counts all calls, and `fails k` is the error the `k`-th call returns, if any. -/
structure Writer where
  written : List String
  calls : Nat
  fails : Nat → Option Error

/-- One call `w.Write(data)`. -/
def Writer.Write (w : Writer) (data : String) : Writer × Option Error :=
  match w.fails w.calls with
  | some err => ({ w with calls := w.calls + 1 }, some err)
  | none => ({ w with written := w.written ++ [data], calls := w.calls + 1 }, none)

/-- The call `fmt.Fprintln(w, s)`: one `Write` of `s` and a newline. -/
def Fprintln (w : Writer) (s : String) : Writer × Option Error := w.Write (s ++ "\n")

/-- The call `fmt.Fprintf(w, format, ...)`, given the formatted text: one `Write`. -/
def Fprintf (w : Writer) (formatted : String) : Writer × Option Error := w.Write formatted

/-- A writer on which every `Write` succeeds, with nothing written yet. -/
def Writer.reliable : Writer := { written := [], calls := 0, fails := fun _ => none }

/-- The text a writer has received. -/
def Writer.text (w : Writer) : String := String.join w.written

/-- The comparison closure of `sortChildren`: directories first, then by name.  Go
compares strings bytewise, which on UTF-8 text is the lexicographic order of the
sequences of code points, the order of the character lists used here. -/
def less (h : Heap) (i j : Nat) : Bool :=
  if (read h i).IsDir != (read h j).IsDir then (read h i).IsDir
  else decide ((read h i).Name.data < (read h j).Name.data)

/-- One step of insertion sort on the reversed sorted part: `x` moves towards the front
of the slice while it is less than its left neighbour. -/
def insertBack {α : Type} (lt : α → α → Bool) (x : α) : List α → List α
  | [] => [x]
  | y :: ys => if lt x y then y :: insertBack lt x ys else x :: y :: ys

/-- The call `sort.Slice(data, less)`, modelled by insertion sort.  The Go runtime sorts
slices of up to 12 elements exactly so; longer slices go through an unstable
pattern-defeating quicksort, which returns the same slice whenever no two elements are
tied under `less`, and may order tied elements differently.  The statements about the
order of siblings are therefore made for nodes whose children have distinct names. -/
def sortSlice {α : Type} (lt : α → α → Bool) (data : List α) : List α :=
  (data.foldl (fun acc x => insertBack lt x acc) []).reverse

/-- The function `sortChildren`, called on the slice `owner.Children`: the slice is
permuted in place, so the node's `Children` field changes. -/
def sortChildren (h : Heap) (owner : Nat) : Heap :=
  write h owner { read h owner with Children := sortSlice (less h) (read h owner).Children }

/-- The ASCII renderer (`render.ASCIIPrinter`). -/
structure ASCIIPrinter where
  writer : Writer

/-- The body of the loop of `(*ASCIIPrinter).printChildren` from index `i` on; `callee`
is the recursive call, `len` is `len(children)`. -/
def ASCIIPrinter.printLoop (callee : Heap → Writer → List Nat → String → Heap × Writer)
    (len : Nat) (pfx : String) : List Nat → Nat → Heap → Writer → Heap × Writer
  | [], _, h, w => (h, w)
  | child :: rest, i, h, w =>
    let isLast := decide (i = len - 1)
    let connector := if isLast then boxUpAndRight else boxVerticalRight
    let name := if (read h child).IsDir then (read h child).Name ++ "/" else (read h child).Name
    let w1 := (Fprintf w (pfx ++ connector ++ boxHorizontal ++ " " ++ name ++ "\n")).1
    let (h2, w2) :=
      if (read h child).Children.length > 0 then
        let h1 := sortChildren h child
        let newPfx := if isLast then pfx ++ boxSpace else pfx ++ boxVerticalSpace
        callee h1 w1 (read h1 child).Children newPfx
      else (h, w1)
    ASCIIPrinter.printLoop callee len pfx rest (i + 1) h2 w2

/-- The method `(*ASCIIPrinter).printChildren`; `fuel` bounds the recursion depth. -/
def ASCIIPrinter.printChildren : Nat → Heap → Writer → List Nat → String → Heap × Writer
  | 0 => fun h w _ _ => (h, w)
  | fuel + 1 => fun h w children pfx =>
    ASCIIPrinter.printLoop (ASCIIPrinter.printChildren fuel) children.length pfx children 0 h w

/-- The method `(*ASCIIPrinter).Print`: returns the heap, the printer and the error. -/
def ASCIIPrinter.Print (fuel : Nat) (p : ASCIIPrinter) (h : Heap) (root : Option Nat) :
    Heap × ASCIIPrinter × Option Error :=
  match root with
  | none => (h, p, none)
  | some r =>
    let w1 := (Fprintln p.writer (read h r).Name).1
    let h1 := sortChildren h r
    let (h2, w2) := ASCIIPrinter.printChildren fuel h1 w1 (read h1 r).Children ""
    (h2, { p with writer := w2 }, none)

/-- The Markdown renderer (`render.MarkdownPrinter`). -/
structure MarkdownPrinter where
  writer : Writer
  repoURL : String
  branchName : String

/-- The constructor `NewMarkdownPrinter`. -/
def NewMarkdownPrinter (w : Writer) (owner repo branch : String) : MarkdownPrinter :=
  { writer := w, repoURL := "https://github.com/" ++ owner ++ "/" ++ repo, branchName := branch }

/-- The body of the loop of `(*MarkdownPrinter).printChildren`. -/
def MarkdownPrinter.printLoop (callee : Heap → Writer → List Nat → String → Heap × Writer)
    (len : Nat) (pfx : String) : List Nat → Nat → Heap → Writer → Heap × Writer
  | [], _, h, w => (h, w)
  | child :: rest, i, h, w =>
    let isLast := decide (i = len - 1)
    let connector := if isLast then boxUpAndRight else boxVerticalRight
    let name := if (read h child).IsDir then (read h child).Name ++ "/" else (read h child).Name
    let w1 := (Fprintf w (pfx ++ connector ++ boxHorizontal ++ " " ++ name ++ "\n")).1
    let (h2, w2) :=
      if (read h child).Children.length > 0 then
        let h1 := sortChildren h child
        let newPfx := if isLast then pfx ++ boxSpace else pfx ++ boxVerticalSpace
        callee h1 w1 (read h1 child).Children newPfx
      else (h, w1)
    MarkdownPrinter.printLoop callee len pfx rest (i + 1) h2 w2

/-- The method `(*MarkdownPrinter).printChildren`; `fuel` bounds the recursion depth. -/
def MarkdownPrinter.printChildren : Nat → Heap → Writer → List Nat → String → Heap × Writer
  | 0 => fun h w _ _ => (h, w)
  | fuel + 1 => fun h w children pfx =>
    MarkdownPrinter.printLoop (MarkdownPrinter.printChildren fuel) children.length pfx
      children 0 h w

/-- The text the Markdown renderer writes before the tree, one item per `Write`; `now` is
`time.Now().Format("2006-01-02 15:04:05")`. -/
def MarkdownPrinter.frontMatter (p : MarkdownPrinter) (rootName now : String) : List String :=
  ["# " ++ rootName ++ " 目录结构\n\n",
   "**仓库地址**: [" ++ p.repoURL ++ "](" ++ p.repoURL ++ ")  \n",
   "**分支**: `" ++ p.branchName ++ "`  \n",
   "**生成时间**: " ++ now ++ "\n\n",
   "---" ++ "\n"]

/-- The method `(*MarkdownPrinter).Print`; `now` is the formatted current time. -/
def MarkdownPrinter.Print (fuel : Nat) (p : MarkdownPrinter) (now : String) (h : Heap)
    (root : Option Nat) : Heap × MarkdownPrinter × Option Error :=
  match root with
  | none => (h, p, none)
  | some r =>
    let w1 := (Fprintf p.writer ("# " ++ (read h r).Name ++ " 目录结构\n\n")).1
    let w2 := (Fprintf w1 ("**仓库地址**: [" ++ p.repoURL ++ "](" ++ p.repoURL ++ ")  \n")).1
    let w3 := (Fprintf w2 ("**分支**: `" ++ p.branchName ++ "`  \n")).1
    let w4 := (Fprintf w3 ("**生成时间**: " ++ now ++ "\n\n")).1
    let w5 := (Fprintln w4 "---").1
    let w6 := (Fprintln w5 "```").1
    let w7 := (Fprintln w6 (read h r).Name).1
    let h1 := sortChildren h r
    let (h2, w8) := MarkdownPrinter.printChildren fuel h1 w7 (read h1 r).Children ""
    let w9 := (Fprintln w8 "```").1
    (h2, { p with writer := w9 }, none)

/-! ## The rendering as the specification describes it -/

/-- The children of a node in printing order. -/
def sortedChildren (h : Heap) (n : Nat) : List Nat := sortSlice (less h) (read h n).Children

/-- The display name: `Name`, followed by "/" for a directory. -/
def displayName (h : Heap) (n : Nat) : String :=
  if (read h n).IsDir then (read h n).Name ++ "/" else (read h n).Name

/-- The indentation derived from the last/not-last status of the ancestors below the
root, from the top down. -/
def padding : List Bool → String
  | [] => ""
  | last :: flags => (if last then "    " else "│   ") ++ padding flags

/-- The connector of a line. -/
def connectorOf (last : Bool) : String := if last then "└── " else "├── "

/-- The lines of a sequence of siblings (in printing order) and their subtrees; `sub`
gives the lines below one node. -/
def specLoop (h : Heap) (sub : List Bool → Nat → List String) (flags : List Bool) :
    List Nat → List String
  | [] => []
  | c :: rest =>
    (padding flags ++ connectorOf rest.isEmpty ++ displayName h c ++ "\n") ::
      (sub (flags ++ [rest.isEmpty]) c ++ specLoop h sub flags rest)

/-- The lines below node `n`, whose ancestors below the root have the given flags, to
depth `d`, when the children of a node `m` are listed in the order `kids m`. -/
def specLines (h : Heap) (kids : Nat → List Nat) : Nat → List Bool → Nat → List String
  | 0 => fun _ _ => []
  | d + 1 => fun flags n => specLoop h (specLines h kids d) flags (kids n)

/-- The order in which a renderer lists siblings: directories before files, and names
ascending within each of the two groups. -/
def DirsFirstByName (h : Heap) (a b : Nat) : Prop :=
  ((read h a).IsDir = true ∨ (read h b).IsDir = false) ∧
  ((read h a).IsDir = (read h b).IsDir → (read h a).Name.data < (read h b).Name.data)

/-- Heap `g` is heap `h` after some of its `Children` slices have been sorted in place:
all other fields are those of `h`. -/
def Sim (h g : Heap) : Prop :=
  g.length = h.length ∧
  ∀ n, read g n = { read h n with Children := (read g n).Children } ∧
    ((read g n).Children = (read h n).Children ∨ (read g n).Children = sortedChildren h n)

/-- The line of a node: an indentation, a connector, its display name and a line break. -/
def LineOf (h : Heap) (line : String) (n : Nat) : Prop :=
  ∃ flags last, line = padding flags ++ connectorOf last ++ displayName h n ++ "\n"

/-- The nodes of the subtree at `n` in pre-order, children in printing order. -/
def preorder (h : Heap) : Nat → Nat → List Nat
  | 0 => fun _ => []
  | d + 1 => fun n => n :: (sortedChildren h n).flatMap (preorder h d)

/-- The number of lines of a text: the number of line breaks, every line being
terminated by one. -/
def lineCount (text : String) : Nat := text.data.count '\n'

/-- Apply a sequence of `Write` calls, dropping the results. -/
def emit (w : Writer) (datas : List String) : Writer :=
  datas.foldl (fun w d => (w.Write d).1) w

/-! ## internal/app: Run -/

/-- What `Run` does to the outside, in order. -/
inductive Event
  | stdout (text : String)
  | print (h : Heap) (root : Option Nat)
deriving DecidableEq, Repr

/-- The application (`app.App`): `fetcher` is `Fetcher.GetTree` applied to owner, repo
and ref; `printer` is the result of `Printer.Print` on a root pointer in a heap. -/
structure App where
  fetcher : String → String → String → Except Error TreeResponse
  printer : Heap → Option Nat → Option Error

/-- The warning `Run` prints for a truncated listing. -/
def truncationWarning : String := "⚠️  警告: 仓库过大，结果已被截断，显示的目录结构不完整"

/-- The method `(*App).Run`: the events in order and the returned error. -/
def App.Run (a : App) (owner repo ref : String) : List Event × Option Error :=
  match a.fetcher owner repo ref with
  | .error err => ([], some ("获取仓库目录树失败: " ++ err))
  | .ok treeResp =>
    let warned := if treeResp.Truncated then [Event.stdout (truncationWarning ++ "\n")] else []
    let (h, root) := buildTree treeResp.Tree repo
    (warned ++ [Event.print h (some root)], a.printer h (some root))

/-- A writer on which every `Write` fails. -/
def Writer.broken : Writer :=
  { written := [], calls := 0, fails := fun _ => some "write: broken pipe" }

/-- An application whose fetcher returns the given response and whose printer is the
ASCII renderer on a reliable writer. -/
def exampleApp (resp : TreeResponse) : App :=
  { fetcher := fun _ _ _ => .ok resp,
    printer := fun h root => (ASCIIPrinter.Print h.length { writer := Writer.reliable } h root).2.2 }

/-- The heaps reached by `NewNode` on an empty heap followed by any sequence of
`insertPath` calls on that root (the root is at address 0). -/
inductive Grown : Heap → Prop
  | start (name path : String) (isDir : Bool) : Grown (NewNode [] name path isDir).1
  | insert (h : Heap) (blob : GitBlob) : Grown h → Grown (insertPath h 0 blob)

/-- A well-formed entry list: every path is non-empty and has no empty segment, entries
with the same path agree on being of type "tree", and every entry whose segment sequence
is a proper prefix of that of another entry is of type "tree". -/
def WellFormed (blobs : List GitBlob) : Prop :=
  (∀ e ∈ blobs, e.Path ≠ "" ∧ "" ∉ Split e.Path) ∧
  (∀ e ∈ blobs, ∀ e' ∈ blobs, e.Path = e'.Path → (e.Typ = "tree" ↔ e'.Typ = "tree")) ∧
  (∀ e ∈ blobs, ∀ e' ∈ blobs, segments e.Path <+: segments e'.Path →
    segments e.Path ≠ segments e'.Path → e.Typ = "tree")

/-- The sort key of a node: its directory flag and its name. -/
def sortKey (h : Heap) (n : Nat) : Bool × String := ((read h n).IsDir, (read h n).Name)

/-- The printing order on sort keys: directories first, then ascending names. -/
def keyBefore (a b : Bool × String) : Prop :=
  (a.1 = true ∨ b.1 = false) ∧ (a.1 = b.1 → a.2.data < b.2.data)

/-! ## Example entries -/

/-- The file entry `a/b.txt`. -/
def fileAB : GitBlob :=
  { Path := "a/b.txt", Typ := "blob", Size := 12, Sha := "f1", Mode := "100644", URL := "" }

/-- The directory entry `a`. -/
def dirA : GitBlob :=
  { Path := "a", Typ := "tree", Size := 0, Sha := "d1", Mode := "040000", URL := "" }

/-- The file entry `a`. -/
def fileA : GitBlob :=
  { Path := "a", Typ := "blob", Size := 3, Sha := "f2", Mode := "100644", URL := "" }

/-- The file entry `a/b`. -/
def fileAslashB : GitBlob :=
  { Path := "a/b", Typ := "blob", Size := 5, Sha := "f3", Mode := "100644", URL := "" }

/-- The file entry `src/main.go`. -/
def srcMain : GitBlob :=
  { Path := "src/main.go", Typ := "blob", Size := 40, Sha := "f4", Mode := "100644", URL := "" }

/-- The file entry `README.md`. -/
def readme : GitBlob :=
  { Path := "README.md", Typ := "blob", Size := 9, Sha := "f5", Mode := "100644", URL := "" }

/-- The file entry `b`. -/
def fileB : GitBlob :=
  { Path := "b", Typ := "blob", Size := 1, Sha := "f6", Mode := "100644", URL := "" }

/-- A file entry whose path has a leading slash. -/
def slashA : GitBlob :=
  { Path := "/a", Typ := "blob", Size := 3, Sha := "f7", Mode := "100644", URL := "" }

/-- A file entry whose path has two consecutive slashes. -/
def fileAslashslashB : GitBlob :=
  { Path := "a//b", Typ := "blob", Size := 3, Sha := "f8", Mode := "100644", URL := "" }

/-- A file entry whose path has a trailing slash. -/
def fileAslash : GitBlob :=
  { Path := "a/", Typ := "blob", Size := 3, Sha := "f9", Mode := "100644", URL := "" }

/-! ## Reading and writing the heap -/

theorem read_of_le (h : Heap) (p : Nat) (hp : h.length ≤ p) : read h p = default := by
  simp [read, List.getD, List.getElem?_eq_none hp]

theorem default_children : (default : Node).Children = [] := rfl

theorem default_childMap : (default : Node).childMap = [] := rfl

theorem length_write (h : Heap) (p : Nat) (r : Node) : (write h p r).length = h.length := by
  simp [write]

theorem read_write_same (h : Heap) (p : Nat) (r : Node) (hp : p < h.length) :
    read (write h p r) p = r := by
  simp [read, write, List.getD, hp]

theorem read_write_ne (h : Heap) (p q : Nat) (r : Node) (hpq : p ≠ q) :
    read (write h p r) q = read h q := by
  simp [read, write, List.getD, List.getElem?_set_ne hpq]

theorem read_append_lt (h : Heap) (r : Node) (p : Nat) (hp : p < h.length) :
    read (h ++ [r]) p = read h p := by
  simp [read, List.getD, List.getElem?_append_left hp]

theorem read_append_length (h : Heap) (r : Node) : read (h ++ [r]) h.length = r := by
  simp [read, List.getD]

theorem read_append_gt (h : Heap) (r : Node) (p : Nat) (hp : h.length < p) :
    read (h ++ [r]) p = read h p := by
  rw [read_of_le, read_of_le]
  · omega
  · simp; omega

/-! ## The creation step of insertLoop -/

theorem length_graft (h : Heap) (cur : Nat) (part path : String) (d : Bool)
    (m : Option GitBlob) : (graft h cur part path d m).length = h.length + 1 := by
  simp [graft, write]

theorem read_graft_new (h : Heap) (cur : Nat) (part path : String) (d : Bool)
    (m : Option GitBlob) :
    read (graft h cur part path d m) h.length =
      { Name := part, Path := path, IsDir := d, Children := [], Meta := m,
        parent := some cur, childMap := [] } := by
  have := read_append_length (write h cur { read h cur with
      Children := (read h cur).Children ++ [h.length],
      childMap := (part, h.length) :: (read h cur).childMap })
    { Name := part, Path := path, IsDir := d, Children := [], Meta := m,
        parent := some cur, childMap := [] }
  rw [length_write] at this
  exact this

theorem read_graft_cur (h : Heap) (cur : Nat) (part path : String) (d : Bool)
    (m : Option GitBlob) (hc : cur < h.length) :
    read (graft h cur part path d m) cur =
      { read h cur with Children := (read h cur).Children ++ [h.length],
                        childMap := (part, h.length) :: (read h cur).childMap } := by
  unfold graft
  rw [read_append_lt _ _ _ (by rw [length_write]; exact hc), read_write_same _ _ _ hc]

theorem read_graft_other (h : Heap) (cur : Nat) (part path : String) (d : Bool)
    (m : Option GitBlob) (p : Nat) (h1 : p ≠ cur) (h2 : p ≠ h.length) :
    read (graft h cur part path d m) p = read h p := by
  unfold graft
  rcases Nat.lt_or_gt_of_ne h2 with hlt | hgt
  · rw [read_append_lt _ _ _ (by rw [length_write]; exact hlt), read_write_ne _ _ _ _ (Ne.symm h1)]
  · rw [read_append_gt _ _ _ (by rw [length_write]; exact hgt), read_write_ne _ _ _ _ (Ne.symm h1)]

/-- The three statements of the creation branch (`NewNode`, the `Meta` assignment,
`AddChild`) produce the grafted heap. -/
theorem create_eq_graft (h : Heap) (cur : Nat) (part path : String) (d : Bool)
    (m : Option GitBlob) (blob : GitBlob) (b : Prop) [Decidable b]
    (hm : m = if b then some blob else none) (hc : cur < h.length) :
    AddChild (if b then write (NewNode h part path d).1 (NewNode h part path d).2
        { read (NewNode h part path d).1 (NewNode h part path d).2 with Meta := some blob }
      else (NewNode h part path d).1) cur (NewNode h part path d).2 = graft h cur part path d m := by
  have hne : cur ≠ h.length := Nat.ne_of_lt hc
  apply List.ext_getElem?
  intro k
  by_cases hb : b <;>
  simp [hb, hm, AddChild, NewNode, graft, write, read, List.getD, List.getElem?_set,
    List.getElem?_append, hc, hne, hne.symm]

theorem insertLoop_none (blob : GitBlob) (parts rest : List String) (part : String) (i : Nat)
    (h : Heap) (cur : Nat) (hp : part ≠ "") (hg : GetChild h cur part = none)
    (hc : cur < h.length) :
    insertLoop blob parts (part :: rest) i h cur =
      insertLoop blob parts rest (i + 1)
        (graft h cur part (Join (parts.take (i + 1)))
          (blob.Typ == "tree" || decide (i < parts.length - 1))
          (if i = parts.length - 1 then some blob else none)) h.length := by
  rw [insertLoop, if_neg hp, hg]
  simp only []
  rw [create_eq_graft h cur part _ _ _ blob (i = parts.length - 1) rfl hc]
  rfl

theorem insertLoop_some (blob : GitBlob) (parts rest : List String) (part : String) (i : Nat)
    (h : Heap) (cur child : Nat) (hp : part ≠ "") (hg : GetChild h cur part = some child) :
    insertLoop blob parts (part :: rest) i h cur = insertLoop blob parts rest (i + 1) h child := by
  rw [insertLoop, if_neg hp, hg]

theorem insertLoop_skip (blob : GitBlob) (parts rest : List String) (i : Nat)
    (h : Heap) (cur : Nat) :
    insertLoop blob parts ("" :: rest) i h cur = insertLoop blob parts rest (i + 1) h cur := by
  rw [insertLoop, if_pos rfl]

/-! ## Walks in a well-formed heap -/

theorem walk_nil (h : Heap) (n : Nat) : walk h n [] = some n := rfl

theorem walk_cons (h : Heap) (n : Nat) (x : String) (s : List String) :
    walk h n (x :: s) = (GetChild h n x).bind (fun c => walk h c s) := by
  rw [walk]; cases GetChild h n x <;> rfl

theorem walk_append (h : Heap) (n : Nat) (s t : List String) :
    walk h n (s ++ t) = (walk h n s).bind (fun m => walk h m t) := by
  induction s generalizing n with
  | nil => simp [walk_nil]
  | cons x s ih =>
    rw [List.cons_append, walk_cons, walk_cons]
    cases GetChild h n x with
    | none => rfl
    | some c => simpa using ih c

theorem walk_snoc (h : Heap) (n : Nat) (s : List String) (x : String) (m : Nat) :
    walk h n (s ++ [x]) = some m ↔ ∃ p, walk h n s = some p ∧ GetChild h p x = some m := by
  rw [walk_append]
  cases hw : walk h n s with
  | none => simp
  | some p =>
    simp only [Option.some_bind, walk_cons, walk_nil, Option.some.injEq, exists_eq_left']
    cases GetChild h p x <;> simp

theorem WF.getChild_lt {h : Heap} (wf : WF h) {n c : Nat} {x : String}
    (hg : GetChild h n x = some c) : n < c ∧ c < h.length :=
  wf.ranked n c ((wf.sync n x c).1 hg).1

theorem WF.walk_le {h : Heap} (wf : WF h) {n m : Nat} {s : List String}
    (hw : walk h n s = some m) : n ≤ m ∧ (n = m → s = []) := by
  induction s generalizing n with
  | nil => simp [walk_nil] at hw; subst hw; simp
  | cons x s ih =>
    rw [walk_cons] at hw
    cases hg : GetChild h n x with
    | none => simp [hg] at hw
    | some c =>
      simp [hg] at hw
      have h1 := wf.getChild_lt hg
      have h2 := ih hw
      constructor
      · omega
      · intro h3; omega

theorem WF.walk_lt {h : Heap} (wf : WF h) {n m : Nat} {s : List String} (hn : n < h.length)
    (hw : walk h n s = some m) : m < h.length := by
  induction s generalizing n with
  | nil => simp [walk_nil] at hw; subst hw; exact hn
  | cons x s ih =>
    rw [walk_cons] at hw
    cases hg : GetChild h n x with
    | none => simp [hg] at hw
    | some c =>
      simp [hg] at hw
      exact ih (wf.getChild_lt hg).2 hw

/-- In a well-formed heap a node is reached from `r` by at most one name sequence. -/
theorem WF.walk_inj {h : Heap} (wf : WF h) {r n : Nat} {s t : List String}
    (hs : walk h r s = some n) (ht : walk h r t = some n) : s = t := by
  induction s using List.reverseRecOn generalizing t n with
  | nil =>
    simp [walk_nil] at hs
    subst hs
    exact ((wf.walk_le ht).2 rfl).symm
  | append_singleton s x ih =>
    rcases List.eq_nil_or_concat t with rfl | ⟨t, y, rfl⟩
    · simp [walk_nil] at ht
      subst ht
      exact (wf.walk_le hs).2 rfl
    · rw [List.concat_eq_append] at ht ⊢
      obtain ⟨p, hp, hpx⟩ := (walk_snoc h r s x n).1 hs
      obtain ⟨q, hq, hqy⟩ := (walk_snoc h r t y n).1 ht
      have hp1 := (wf.sync p x n).1 hpx
      have hq1 := (wf.sync q y n).1 hqy
      have hpq : p = q := wf.oneParent p q n hp1.1 hq1.1
      subst hpq
      have hxy : x = y := by rw [← hp1.2, ← hq1.2]
      subst hxy
      rw [ih hp hq]

/-! ## The heap after a creation step -/

section graft
variable (h : Heap) (cur : Nat) (part path : String) (d : Bool) (m : Option GitBlob)

theorem children_graft (hc : cur < h.length) (n : Nat) :
    (read (graft h cur part path d m) n).Children =
      if n = cur then (read h n).Children ++ [h.length] else (read h n).Children := by
  by_cases h1 : n = cur
  · subst h1; rw [read_graft_cur _ _ _ _ _ _ hc]; simp
  · by_cases h2 : n = h.length
    · subst h2; rw [read_graft_new, read_of_le h _ (Nat.le_refl _)]; simp [h1, default_children]
    · rw [read_graft_other _ _ _ _ _ _ _ h1 h2]; simp [h1]

theorem childMap_graft (hc : cur < h.length) (n : Nat) :
    (read (graft h cur part path d m) n).childMap =
      if n = cur then (part, h.length) :: (read h n).childMap else (read h n).childMap := by
  by_cases h1 : n = cur
  · subst h1; rw [read_graft_cur _ _ _ _ _ _ hc]; simp
  · by_cases h2 : n = h.length
    · subst h2; rw [read_graft_new, read_of_le h _ (Nat.le_refl _)]; simp [h1, default_childMap]
    · rw [read_graft_other _ _ _ _ _ _ _ h1 h2]; simp [h1]

theorem fields_graft (hc : cur < h.length) (n : Nat) (hn : n ≠ h.length) :
    (read (graft h cur part path d m) n).Name = (read h n).Name ∧
    (read (graft h cur part path d m) n).Path = (read h n).Path ∧
    (read (graft h cur part path d m) n).IsDir = (read h n).IsDir ∧
    (read (graft h cur part path d m) n).Meta = (read h n).Meta ∧
    (read (graft h cur part path d m) n).parent = (read h n).parent := by
  by_cases h1 : n = cur
  · subst h1; rw [read_graft_cur _ _ _ _ _ _ hc]; simp
  · rw [read_graft_other _ _ _ _ _ _ _ h1 hn]; simp

theorem getChild_graft (hc : cur < h.length) (n : Nat) (x : String) :
    GetChild (graft h cur part path d m) n x =
      if n = cur ∧ x = part then some h.length else GetChild h n x := by
  unfold GetChild
  rw [childMap_graft _ _ _ _ _ _ hc]
  by_cases h1 : n = cur
  · subst h1
    by_cases h2 : x = part
    · subst h2; simp [List.lookup]
    · have : (x == part) = false := by simpa using h2
      simp [List.lookup, h2, this]
  · simp [h1]

theorem wf_graft {h : Heap} (wf : WF h) {cur : Nat} (hc : cur < h.length) {part : String}
    (hg : GetChild h cur part = none) (path : String) (d : Bool) (m : Option GitBlob) :
    WF (graft h cur part path d m) := by
  have hnew : ∀ n, h.length ∉ (read h n).Children := fun n hmem =>
    Nat.lt_irrefl _ (wf.ranked n _ hmem).2
  have hname : ∀ c, c < h.length →
      (read (graft h cur part path d m) c).Name = (read h c).Name := fun c hlt =>
    (fields_graft h cur part path d m hc c (Nat.ne_of_lt hlt)).1
  have hmem : ∀ n c, c ∈ (read (graft h cur part path d m) n).Children ↔
      (c ∈ (read h n).Children ∨ (n = cur ∧ c = h.length)) := by
    intro n c
    rw [children_graft _ _ _ _ _ _ hc]
    by_cases h1 : n = cur <;> simp [h1]
  constructor
  · intro n c hcn
    rw [length_graft]
    rcases (hmem n c).1 hcn with h1 | ⟨h1, h2⟩
    · have := wf.ranked n c h1; omega
    · omega
  · intro n name c
    rw [getChild_graft _ _ _ _ _ _ hc, hmem]
    by_cases h1 : n = cur ∧ name = part
    · obtain ⟨rfl, rfl⟩ := h1
      simp only [and_self, if_true, Option.some.injEq, true_and]
      constructor
      · intro h2; subst h2
        refine ⟨Or.inr rfl, ?_⟩
        rw [read_graft_new]
      · rintro ⟨h2 | h2, h3⟩
        · exfalso
          have hlt := (wf.ranked _ _ h2).2
          rw [hname c hlt] at h3
          have := (wf.sync n name c).2 ⟨h2, h3⟩
          rw [hg] at this; cases this
        · exact h2.symm
    · rw [if_neg h1, wf.sync]
      constructor
      · rintro ⟨h2, h3⟩
        exact ⟨Or.inl h2, by rw [hname c (wf.ranked _ _ h2).2]; exact h3⟩
      · rintro ⟨h2 | ⟨h2, h2'⟩, h3⟩
        · exact ⟨h2, by rw [← hname c (wf.ranked _ _ h2).2]; exact h3⟩
        · exfalso
          subst h2'
          rw [read_graft_new] at h3
          exact h1 ⟨h2, h3.symm⟩
  · intro n k c h1 h2
    rcases (hmem n c).1 h1 with a | ⟨a, a'⟩ <;> rcases (hmem k c).1 h2 with b | ⟨b, b'⟩
    · exact wf.oneParent n k c a b
    · subst b'; exact absurd a (hnew n)
    · subst a'; exact absurd b (hnew k)
    · rw [a, b]
  · intro n
    rw [children_graft _ _ _ _ _ _ hc]
    by_cases h1 : n = cur
    · simp only [h1, if_true]
      rw [List.nodup_append]
      refine ⟨wf.nodup cur, List.nodup_singleton _, ?_⟩
      intro a ha hb
      simp at hb; subst hb
      exact hnew cur ha
    · simp only [h1, if_false]; exact wf.nodup n

theorem walk_graft_new {h : Heap} {cur : Nat} (hc : cur < h.length) (part path : String)
    (d : Bool) (m : Option GitBlob) (s : List String) (n : Nat) :
    walk (graft h cur part path d m) h.length s = some n ↔ s = [] ∧ n = h.length := by
  cases s with
  | nil => simp [walk_nil, eq_comm]
  | cons x s =>
    rw [walk_cons, getChild_graft _ _ _ _ _ _ hc]
    have h1 : ¬ (h.length = cur ∧ x = part) := fun hh => by omega
    have h2 : GetChild h h.length x = none := by
      simp [GetChild, read_of_le h _ (Nat.le_refl _), default_childMap]
    simp [h1, h2]

/-- The walks of the grafted heap: the old ones, and the old walks to `cur` extended by
the new name. -/
theorem walk_graft {h : Heap} (wf : WF h) {cur : Nat} (hc : cur < h.length) {part : String}
    (hg : GetChild h cur part = none) (path : String) (d : Bool) (m : Option GitBlob)
    (s : List String) (r n : Nat) (hr : r < h.length) :
    walk (graft h cur part path d m) r s = some n ↔
      (walk h r s = some n ∨ ∃ p, s = p ++ [part] ∧ walk h r p = some cur ∧ n = h.length) := by
  induction s generalizing r with
  | nil => simp [walk_nil]
  | cons x s ih =>
    rw [walk_cons, getChild_graft _ _ _ _ _ _ hc, walk_cons]
    by_cases h1 : r = cur ∧ x = part
    · obtain ⟨rfl, rfl⟩ := h1
      simp only [and_self, if_true, Option.some_bind, hg, Option.none_bind, false_or,
        reduceCtorEq]
      rw [walk_graft_new hc]
      constructor
      · rintro ⟨rfl, rfl⟩
        exact ⟨[], rfl, rfl, rfl⟩
      · rintro ⟨p, hp, hw, rfl⟩
        cases p with
        | nil => simp at hp; exact ⟨hp, rfl⟩
        | cons y p =>
          simp at hp
          obtain ⟨rfl, rfl⟩ := hp
          rw [walk_cons, hg] at hw
          cases hw
    · rw [if_neg h1]
      cases hgx : GetChild h r x with
      | none =>
        simp only [Option.none_bind, false_or, false_iff, reduceCtorEq]
        rintro ⟨p, hp, hw, -⟩
        cases p with
        | nil =>
          simp at hp
          simp [walk_nil] at hw
          exact h1 ⟨hw, hp.1⟩
        | cons y p =>
          simp at hp
          obtain ⟨rfl, rfl⟩ := hp
          rw [walk_cons, hgx] at hw
          cases hw
      | some c =>
        simp only [Option.some_bind]
        rw [ih c (wf.getChild_lt hgx).2]
        constructor
        · rintro (h2 | ⟨p, rfl, hw, rfl⟩)
          · exact Or.inl h2
          · refine Or.inr ⟨x :: p, rfl, ?_, rfl⟩
            rw [walk_cons, hgx]; exact hw
        · rintro (h2 | ⟨p, hp, hw, rfl⟩)
          · exact Or.inl h2
          · cases p with
            | nil =>
              simp at hp
              simp [walk_nil] at hw
              exact absurd ⟨hw, hp.1⟩ h1
            | cons y p =>
              simp at hp
              obtain ⟨rfl, rfl⟩ := hp
              rw [walk_cons, hgx] at hw
              exact Or.inr ⟨p, rfl, hw, rfl⟩

end graft

/-! ## Final parts and raw prefixes -/

theorem finalIn_skip (rest t : List String) (ht : t ≠ []) :
    finalIn ("" :: rest) t = finalIn rest t := by
  unfold finalIn
  cases rest with
  | nil =>
    have : ([] : List String) ≠ t := fun e => ht e.symm
    simp [this]
  | cons y ys => simp [List.getLast?_cons_cons]

theorem finalIn_cons (part : String) (rest t : List String) (hp : part ≠ "") (ht : t ≠ []) :
    finalIn (part :: rest) (part :: t) = finalIn rest t := by
  unfold finalIn
  cases rest with
  | nil =>
    have : ([] : List String) ≠ t := fun e => ht e.symm
    simp [hp, this]
  | cons y ys => simp [List.getLast?_cons_cons, hp]

theorem finalIn_single (part : String) (rest : List String) (hp : part ≠ "") :
    finalIn (part :: rest) [part] = true ↔ rest = [] := by
  unfold finalIn
  constructor
  · intro hf
    simp [hp] at hf
    obtain ⟨h1, h2⟩ := hf
    by_contra hne
    obtain ⟨l, a, rfl⟩ := (List.eq_nil_or_concat rest).resolve_left hne
    rw [List.concat_eq_append] at h1 h2
    have ha : a = "" := by
      have := h1 a (by simp)
      exact this
    subst ha
    rw [← List.cons_append, List.getLast?_append] at h2
    simp at h2
  · rintro rfl
    simp [hp]

theorem rawTake_skip (rest t : List String) (ht : t ≠ []) :
    rawTake ("" :: rest) t = "" :: rawTake rest t := by
  cases t with
  | nil => exact absurd rfl ht
  | cons x t => simp [rawTake]

theorem rawTake_cons (part : String) (rest t : List String) (hp : part ≠ "") :
    rawTake (part :: rest) (part :: t) = part :: rawTake rest t := by
  simp [rawTake, hp]

theorem rawTake_nil (rest : List String) : rawTake rest [] = [] := by
  cases rest <;> rfl

/-! ## The frame of an insertion -/

theorem Frame.refl (h : Heap) : Frame h h :=
  ⟨Nat.le_refl _, fun _ _ => rfl, fun _ _ => rfl, fun _ _ => rfl, fun _ _ => rfl,
    fun _ _ => List.prefix_refl _⟩

theorem Frame.trans {h1 h2 h3 : Heap} (a : Frame h1 h2) (b : Frame h2 h3) : Frame h1 h3 where
  len_le := Nat.le_trans a.len_le b.len_le
  name p hp := (b.name p (Nat.lt_of_lt_of_le hp a.len_le)).trans (a.name p hp)
  path p hp := (b.path p (Nat.lt_of_lt_of_le hp a.len_le)).trans (a.path p hp)
  isDir p hp := (b.isDir p (Nat.lt_of_lt_of_le hp a.len_le)).trans (a.isDir p hp)
  keepMeta p hp := (b.keepMeta p (Nat.lt_of_lt_of_le hp a.len_le)).trans (a.keepMeta p hp)
  children p hp := (a.children p hp).trans (b.children p (Nat.lt_of_lt_of_le hp a.len_le))

theorem frame_graft (h : Heap) (cur : Nat) (part path : String) (d : Bool)
    (m : Option GitBlob) (hc : cur < h.length) : Frame h (graft h cur part path d m) where
  len_le := by rw [length_graft]; omega
  name p hp := (fields_graft h cur part path d m hc p (Nat.ne_of_lt hp)).1
  path p hp := (fields_graft h cur part path d m hc p (Nat.ne_of_lt hp)).2.1
  isDir p hp := (fields_graft h cur part path d m hc p (Nat.ne_of_lt hp)).2.2.1
  keepMeta p hp := (fields_graft h cur part path d m hc p (Nat.ne_of_lt hp)).2.2.2.1
  children p _ := by
    rw [children_graft _ _ _ _ _ _ hc]
    split_ifs
    · exact List.prefix_append _ _
    · exact List.prefix_refl _

/-! ## The loop of insertPath -/

theorem loopPost_nil (blob : GitBlob) (r : Nat) (h : Heap) (pre done : List String)
    (wf : WF h) (hr : r < h.length) (cur : Nat) (hd : walk h r done = some cur) :
    LoopPost blob r h h pre done [] where
  wf := wf
  frame := Frame.refl h
  old_walk _ _ hw := hw
  walk_old _ _ hw _ := hw
  walk_new s n hw hn := absurd (wf.walk_lt hr hw) (Nat.not_lt.2 hn)
  reach t ht := by
    simp at ht; subst ht; simp [hd]
  fresh n h1 h2 := absurd h2 (Nat.not_lt.2 h1)

theorem loopPost_skip (blob : GitBlob) (r : Nat) (h h' : Heap) (pre done rest : List String)
    (p : LoopPost blob r h h' (pre ++ [""]) done rest) :
    LoopPost blob r h h' pre done ("" :: rest) where
  wf := p.wf
  frame := p.frame
  old_walk := p.old_walk
  walk_old := p.walk_old
  walk_new s n hw hn := by
    obtain ⟨t, ht, hs, hpre, hname, hdir, hmeta, hpath⟩ := p.walk_new s n hw hn
    refine ⟨t, ht, hs, by simpa using hpre, hname, ?_, ?_, ?_⟩
    · rw [hdir, finalIn_skip _ _ ht]
    · rw [hmeta, finalIn_skip _ _ ht]
    · rw [hpath, rawTake_skip _ _ ht]; simp
  reach t ht := p.reach t (by simpa using ht)
  fresh := p.fresh

theorem loopPost_some (blob : GitBlob) (r : Nat) (h h' : Heap) (pre done rest : List String)
    (part : String) (hp : part ≠ "") (cur : Nat) (hd : walk h r done = some cur)
    (p : LoopPost blob r h h' (pre ++ [part]) (done ++ [part]) rest) :
    LoopPost blob r h h' pre done (part :: rest) where
  wf := p.wf
  frame := p.frame
  old_walk := p.old_walk
  walk_old := p.walk_old
  walk_new s n hw hn := by
    obtain ⟨t, ht, hs, hpre, hname, hdir, hmeta, hpath⟩ := p.walk_new s n hw hn
    refine ⟨part :: t, by simp, by simp [hs], ?_, ?_, ?_, ?_, ?_⟩
    · simpa [hp] using hpre
    · rw [← hname]
      obtain ⟨a, l, rfl⟩ := List.exists_cons_of_ne_nil ht
      simp [List.getLast?_cons_cons]
    · rw [hdir, finalIn_cons _ _ _ hp ht]
    · rw [hmeta, finalIn_cons _ _ _ hp ht]
    · rw [hpath, rawTake_cons _ _ _ hp]; simp
  reach t ht := by
    have ht' : t <+: part :: rest.filter (fun x => x ≠ "") := by simpa [hp] using ht
    rcases List.prefix_cons_iff.1 ht' with rfl | ⟨t', rfl, h2⟩
    · simp [p.old_walk _ _ hd]
    · have := p.reach t' h2
      simpa using this
  fresh := p.fresh

theorem loopPost_none (blob : GitBlob) (r : Nat) (h h' : Heap) (pre done rest : List String)
    (part : String) (hp : part ≠ "") (wf : WF h) (hr : r < h.length) (cur : Nat)
    (hd : walk h r done = some cur) (hg : GetChild h cur part = none)
    (path : String) (d : Bool) (m : Option GitBlob)
    (hpath : path = Join (pre ++ [part]))
    (hdir : d = (blob.Typ == "tree" || !finalIn (part :: rest) [part]))
    (hm : m = if finalIn (part :: rest) [part] then some blob else none)
    (p : LoopPost blob r (graft h cur part path d m) h' (pre ++ [part]) (done ++ [part]) rest) :
    LoopPost blob r h h' pre done (part :: rest) := by
  have hc : cur < h.length := wf.walk_lt hr hd
  have hfr := frame_graft h cur part path d m hc
  have hwg := fun s n => walk_graft wf hc hg path d m s r n hr
  have hlen := length_graft h cur part path d m
  have hnewrec := read_graft_new h cur part path d m
  have hl : h.length < (graft h cur part path d m).length := by rw [hlen]; omega
  have hnewwalk : walk h' r (done ++ [part]) = some h.length :=
    p.old_walk _ _ ((hwg _ _).2 (Or.inr ⟨done, rfl, hd, rfl⟩))
  refine ⟨p.wf, hfr.trans p.frame, ?_, ?_, ?_, ?_, ?_⟩
  · intro s n hw
    exact p.old_walk s n ((hwg s n).2 (Or.inl hw))
  · intro s n hw hn
    have h1 := p.walk_old s n hw (by rw [hlen]; omega)
    rcases (hwg s n).1 h1 with h2 | ⟨_, _, _, h2⟩
    · exact h2
    · omega
  · intro s n hw hn
    by_cases hn' : n = h.length
    · subst hn'
      have h1 := p.walk_old s _ hw hl
      rcases (hwg s _).1 h1 with h2 | ⟨q, rfl, h2, -⟩
      · exact absurd (wf.walk_lt hr h2) (Nat.lt_irrefl _)
      · have hq : q = done := wf.walk_inj h2 hd
        subst hq
        refine ⟨[part], by simp, rfl, by simp [hp], ?_, ?_, ?_, ?_⟩
        · rw [p.frame.name _ hl, hnewrec]; rfl
        · rw [p.frame.isDir _ hl, hnewrec]; exact hdir
        · rw [p.frame.keepMeta _ hl, hnewrec]; exact hm
        · rw [p.frame.path _ hl, hnewrec]
          simp only
          rw [rawTake_cons _ _ _ hp, rawTake_nil, hpath]
    · have hge : (graft h cur part path d m).length ≤ n := by rw [hlen]; omega
      obtain ⟨t, ht, hs, hpre, hname, hdir', hmeta, hpath'⟩ := p.walk_new s n hw hge
      refine ⟨part :: t, by simp, by simp [hs], ?_, ?_, ?_, ?_, ?_⟩
      · simpa [hp] using hpre
      · rw [← hname]
        obtain ⟨a, l, rfl⟩ := List.exists_cons_of_ne_nil ht
        simp [List.getLast?_cons_cons]
      · rw [hdir', finalIn_cons _ _ _ hp ht]
      · rw [hmeta, finalIn_cons _ _ _ hp ht]
      · rw [hpath', rawTake_cons _ _ _ hp]; simp
  · intro t ht
    have ht' : t <+: part :: rest.filter (fun x => x ≠ "") := by simpa [hp] using ht
    rcases List.prefix_cons_iff.1 ht' with rfl | ⟨t', rfl, h2⟩
    · simp [p.old_walk _ _ ((hwg _ _).2 (Or.inl hd))]
    · have := p.reach t' h2
      simpa using this
  · intro n h1 h2
    by_cases hn' : n = h.length
    · subst hn'; exact ⟨_, hnewwalk⟩
    · exact p.fresh n (by rw [hlen]; omega) h2

theorem take_succ_append (pre rest : List String) (part : String) :
    (pre ++ part :: rest).take (pre.length + 1) = pre ++ [part] := by
  induction pre with
  | nil => simp
  | cons a l ih => simpa using ih

/-- The effect of the loop of `insertPath`, started after the parts `pre` at the node
reached by the names `done`. -/
theorem insertLoop_post (blob : GitBlob) (r : Nat) (parts : List String) :
    ∀ (rest pre done : List String) (h : Heap) (cur : Nat), WF h → r < h.length →
      walk h r done = some cur → parts = pre ++ rest →
      LoopPost blob r h (insertLoop blob parts rest pre.length h cur) pre done rest := by
  intro rest
  induction rest with
  | nil =>
    intro pre done h cur wf hr hd _
    rw [insertLoop]
    exact loopPost_nil blob r h pre done wf hr cur hd
  | cons part rest ih =>
    intro pre done h cur wf hr hd hparts
    have hparts' : parts = (pre ++ [part]) ++ rest := by simp [hparts]
    have hlen' : (pre ++ [part]).length = pre.length + 1 := by simp
    by_cases hp : part = ""
    · subst hp
      have key := ih _ done h cur wf hr hd hparts'
      rw [hlen'] at key
      rw [insertLoop_skip]
      exact loopPost_skip blob r h _ pre done rest key
    · cases hg : GetChild h cur part with
      | some child =>
        rw [insertLoop_some _ _ _ _ _ _ _ _ hp hg]
        have hd' : walk h r (done ++ [part]) = some child :=
          (walk_snoc h r done part child).2 ⟨cur, hd, hg⟩
        have key := ih _ _ h child wf hr hd' hparts'
        rw [hlen'] at key
        exact loopPost_some blob r h _ pre done rest part hp cur hd key
      | none =>
        have hc : cur < h.length := wf.walk_lt hr hd
        rw [insertLoop_none _ _ _ _ _ _ _ hp hg hc]
        have hplen : parts.length = pre.length + 1 + rest.length := by
          rw [hparts]; simp; omega
        have hfin : (pre.length = parts.length - 1) ↔ finalIn (part :: rest) [part] = true := by
          rw [finalIn_single _ _ hp, hplen]
          cases rest with
          | nil => simp
          | cons a l => simp; omega
        have hwf' := wf_graft wf hc hg (Join (parts.take (pre.length + 1)))
          (blob.Typ == "tree" || decide (pre.length < parts.length - 1))
          (if pre.length = parts.length - 1 then some blob else none)
        have hd' : walk (graft h cur part (Join (parts.take (pre.length + 1)))
            (blob.Typ == "tree" || decide (pre.length < parts.length - 1))
            (if pre.length = parts.length - 1 then some blob else none)) r (done ++ [part])
              = some h.length :=
          (walk_graft wf hc hg _ _ _ _ r _ hr).2 (Or.inr ⟨done, rfl, hd, rfl⟩)
        have key := ih _ _ _ _ hwf' (by rw [length_graft]; omega) hd' hparts'
        rw [hlen'] at key
        refine loopPost_none blob r h _ pre done rest part hp wf hr cur hd hg _ _ _ ?_ ?_ ?_ key
        · rw [hparts, take_succ_append]
        · by_cases hf : finalIn (part :: rest) [part] = true
          · have := hfin.2 hf
            have h4 : ¬ pre.length < parts.length - 1 := by omega
            simp [hf, h4]
          · have h3 : ¬ pre.length = parts.length - 1 := fun e => hf (hfin.1 e)
            have h4 : pre.length < parts.length - 1 := by omega
            simp [hf, h4]
        · by_cases hf : finalIn (part :: rest) [part] = true
          · simp [hf, hfin.2 hf]
          · have h3 : ¬ pre.length = parts.length - 1 := fun e => hf (hfin.1 e)
            simp [hf, h3]

/-! ## insertPath and buildTree -/

theorem insertPath_post (blob : GitBlob) (r : Nat) (h : Heap) (wf : WF h) (hr : r < h.length) :
    LoopPost blob r h (insertPath h r blob) [] [] (Split blob.Path) := by
  have := insertLoop_post blob r (Split blob.Path) (Split blob.Path) [] [] h r wf hr rfl rfl
  simpa [insertPath] using this

theorem wf_root (nd : Node) (h1 : nd.Children = []) (h2 : nd.childMap = []) : WF [nd] := by
  have hch : ∀ n, (read [nd] n).Children = [] := by
    intro n
    cases n with
    | zero => simpa [read] using h1
    | succ k => rw [read_of_le _ _ (by simp)]; rfl
  have hcm : ∀ n, (read [nd] n).childMap = [] := by
    intro n
    cases n with
    | zero => simpa [read] using h2
    | succ k => rw [read_of_le _ _ (by simp)]; rfl
  constructor
  · intro n c hc; rw [hch] at hc; cases hc
  · intro n name c
    simp [GetChild, hcm, hch]
  · intro n m c hc; rw [hch] at hc; cases hc
  · intro n; rw [hch]; exact List.nodup_nil

theorem walk_root_only (nd : Node) (h2 : nd.childMap = []) (s : List String) (hs : s ≠ []) :
    walk [nd] 0 s = none := by
  cases s with
  | nil => exact absurd rfl hs
  | cons x s => simp [walk_cons, GetChild, read, h2]

theorem firstThrough_none (blobs : List GitBlob) (s : List String) :
    firstThrough blobs s = none ↔ ∀ e ∈ blobs, ¬ s <+: segments e.Path := by
  simp [firstThrough, List.find?_eq_none]

theorem firstThrough_append (l1 l2 : List GitBlob) (s : List String) :
    firstThrough (l1 ++ l2) s = (firstThrough l1 s).or (firstThrough l2 s) := by
  simp [firstThrough, List.find?_append]

theorem built_nil (rootName : String) : Built [] rootName (NewNode [] rootName "" true).1 := by
  refine ⟨wf_root _ rfl rfl, by simp [NewNode], rfl, rfl, rfl, rfl, ?_, ?_, ?_⟩
  · intro s hs
    have hw : walk (NewNode [] rootName "" true).1 0 s = none :=
      walk_root_only _ rfl s hs
    simp [hw]
  · intro s n hs hw
    have hw' : walk (NewNode [] rootName "" true).1 0 s = none :=
      walk_root_only _ rfl s hs
    rw [hw'] at hw
    cases hw
  · intro n hn
    have : n = 0 := by simp [NewNode] at hn; exact hn
    subst this
    exact ⟨[], rfl⟩

theorem built_snoc (blobs : List GitBlob) (rootName : String) (h : Heap) (e : GitBlob)
    (b : Built blobs rootName h) : Built (blobs ++ [e]) rootName (insertPath h 0 e) := by
  have p := insertPath_post e 0 h b.wf b.pos
  have hseg : (Split e.Path).filter (fun x => x ≠ "") = segments e.Path := rfl
  refine ⟨p.wf, Nat.lt_of_lt_of_le b.pos p.frame.len_le, ?_, ?_, ?_, ?_, ?_, ?_, ?_⟩
  · rw [p.frame.name 0 b.pos]; exact b.rootName
  · rw [p.frame.path 0 b.pos]; exact b.rootPath
  · rw [p.frame.isDir 0 b.pos]; exact b.rootDir
  · rw [p.frame.keepMeta 0 b.pos]; exact b.rootMeta
  · intro s hs
    constructor
    · intro hw
      obtain ⟨n, hn⟩ := Option.isSome_iff_exists.1 hw
      by_cases hlt : n < h.length
      · have h1 := p.walk_old s n hn hlt
        obtain ⟨e', he', hpre⟩ := (b.paths s hs).1 (by simp [h1])
        exact ⟨e', by simp [he'], hpre⟩
      · obtain ⟨t, -, hst, hpre, -⟩ := p.walk_new s n hn (Nat.le_of_not_lt hlt)
        simp at hst; subst hst
        exact ⟨e, by simp, hpre⟩
    · rintro ⟨e', he', hpre⟩
      rcases List.mem_append.1 he' with h1 | h1
      · obtain ⟨n, hn⟩ := Option.isSome_iff_exists.1 ((b.paths s hs).2 ⟨e', h1, hpre⟩)
        simp [p.old_walk s n hn]
      · simp at h1; subst h1
        simpa using p.reach s hpre
  · intro s n hs hw
    by_cases hlt : n < h.length
    · have h1 := p.walk_old s n hw hlt
      obtain ⟨e0, hf, hname, hdir, hmeta, hpath⟩ := b.fields s n hs h1
      refine ⟨e0, ?_, ?_, ?_, ?_, ?_⟩
      · rw [firstThrough_append, hf]; rfl
      · rw [p.frame.name n hlt]; exact hname
      · rw [p.frame.isDir n hlt]; exact hdir
      · rw [p.frame.keepMeta n hlt]; exact hmeta
      · rw [p.frame.path n hlt]; exact hpath
    · obtain ⟨t, -, hst, hpre, hname, hdir, hmeta, hpath⟩ :=
        p.walk_new s n hw (Nat.le_of_not_lt hlt)
      simp at hst; subst hst
      have hnone : firstThrough blobs s = none := by
        rw [firstThrough_none]
        intro e' he' hpre'
        obtain ⟨k, hk⟩ := Option.isSome_iff_exists.1 ((b.paths s hs).2 ⟨e', he', hpre'⟩)
        have h2 := p.old_walk s k hk
        rw [hw] at h2
        cases h2
        exact hlt (b.wf.walk_lt b.pos hk)
      refine ⟨e, ?_, hname, hdir, hmeta, by simpa using hpath⟩
      rw [firstThrough_append, hnone]
      simp only [Option.none_or, firstThrough, List.find?]
      have : s.isPrefixOf (segments e.Path) = true := by
        rw [List.isPrefixOf_iff_prefix]; exact hpre
      simp [this]
  · intro n hn
    by_cases hlt : n < h.length
    · obtain ⟨s, hs⟩ := b.allReach n hlt
      exact ⟨s, p.old_walk s n hs⟩
    · exact p.fresh n (Nat.le_of_not_lt hlt) hn

theorem built_foldl (rootName : String) (blobs : List GitBlob) :
    ∀ (prev : List GitBlob) (h : Heap), Built prev rootName h →
      Built (prev ++ blobs) rootName (blobs.foldl (fun h blob => insertPath h 0 blob) h) := by
  induction blobs with
  | nil => intro prev h b; simpa using b
  | cons e l ih =>
    intro prev h b
    have := ih (prev ++ [e]) _ (built_snoc prev rootName h e b)
    simpa using this

theorem buildTree_root (blobs : List GitBlob) (rootName : String) :
    (buildTree blobs rootName).2 = 0 := rfl

/-- The heap returned by `buildTree` satisfies the build invariant for the whole list. -/
theorem buildTree_built (blobs : List GitBlob) (rootName : String) :
    Built blobs rootName (buildTree blobs rootName).1 := by
  have := built_foldl rootName blobs [] _ (built_nil rootName)
  simpa [buildTree, NewNode] using this

/-! ## Children and the child map -/

theorem filter_eq_toList {l : List Nat} (nd : l.Nodup) (P : Nat → Bool) (g : Option Nat)
    (hg : ∀ c, g = some c ↔ (c ∈ l ∧ P c = true)) : l.filter P = g.toList := by
  induction l generalizing g with
  | nil =>
    cases g with
    | none => rfl
    | some c => exact absurd ((hg c).1 rfl).1 (List.not_mem_nil c)
  | cons a l ih =>
    rw [List.nodup_cons] at nd
    by_cases hP : P a = true
    · have hga : g = some a := (hg a).2 ⟨List.mem_cons_self _ _, hP⟩
      have hnone : l.filter P = (none : Option Nat).toList := by
        apply ih nd.2
        intro c
        constructor
        · intro hc; cases hc
        · rintro ⟨hc, hPc⟩
          have := (hg c).2 ⟨List.mem_cons_of_mem _ hc, hPc⟩
          rw [hga] at this
          cases this
          exact absurd hc nd.1
      rw [List.filter_cons_of_pos hP, hnone, hga]; rfl
    · rw [List.filter_cons_of_neg hP]
      apply ih nd.2
      intro c
      rw [hg c]
      constructor
      · rintro ⟨hc, hPc⟩
        rcases List.mem_cons.1 hc with rfl | hc
        · exact absurd hPc hP
        · exact ⟨hc, hPc⟩
      · rintro ⟨hc, hPc⟩
        exact ⟨List.mem_cons_of_mem _ hc, hPc⟩

/-- In a well-formed heap, following `Children` by name is the walk through the map. -/
theorem WF.descend_eq {h : Heap} (wf : WF h) (r : Nat) (s : List String) :
    descend h r s = (walk h r s).toList := by
  induction s generalizing r with
  | nil => rfl
  | cons x s ih =>
    rw [descend, walk_cons]
    rw [filter_eq_toList (wf.nodup r) _ (GetChild h r x)
      (fun c => by rw [wf.sync]; simp)]
    cases GetChild h r x with
    | none => rfl
    | some c => simp [ih c]

theorem WF.mem_descend {h : Heap} (wf : WF h) (r : Nat) (s : List String) (n : Nat) :
    n ∈ descend h r s ↔ walk h r s = some n := by
  rw [wf.descend_eq]
  cases walk h r s <;> simp [eq_comm]

theorem WF.descend_single {h : Heap} (wf : WF h) (r : Nat) (s : List String) (n : Nat) :
    descend h r s = [n] ↔ walk h r s = some n := by
  rw [wf.descend_eq]
  cases walk h r s <;> simp

/-! ## sort.Slice -/

section sort
variable {α : Type} (lt : α → α → Bool)

theorem insertBack_perm (x : α) (acc : List α) : (insertBack lt x acc).Perm (x :: acc) := by
  induction acc with
  | nil => exact List.Perm.refl _
  | cons y ys ih =>
    rw [insertBack]
    split_ifs
    · exact (List.Perm.cons y ih).trans (List.Perm.swap x y ys)
    · exact List.Perm.refl _

theorem foldl_insertBack_perm (l acc : List α) :
    (l.foldl (fun acc x => insertBack lt x acc) acc).Perm (l ++ acc) := by
  induction l generalizing acc with
  | nil => exact List.Perm.refl _
  | cons x l ih =>
    rw [List.foldl_cons]
    refine (ih _).trans ?_
    refine (List.Perm.append_left l (insertBack_perm lt x acc)).trans ?_
    simp

/-- The sorted slice is a permutation of the slice. -/
theorem sortSlice_perm (l : List α) : (sortSlice lt l).Perm l := by
  unfold sortSlice
  refine (List.reverse_perm _).trans ?_
  simpa using foldl_insertBack_perm lt l []

variable (asymm : ∀ a b, lt a b = true → lt b a = false)
  (negtrans : ∀ a b c, lt a b = false → lt b c = false → lt a c = false)

include asymm negtrans in
theorem insertBack_sorted (x : α) (acc : List α)
    (hs : acc.Pairwise (fun a b => lt a b = false)) :
    (insertBack lt x acc).Pairwise (fun a b => lt a b = false) := by
  induction acc with
  | nil => simp [insertBack]
  | cons y ys ih =>
    rw [List.pairwise_cons] at hs
    rw [insertBack]
    split_ifs with hxy
    · rw [List.pairwise_cons]
      refine ⟨?_, ih hs.2⟩
      intro z hz
      rcases List.mem_cons.1 ((insertBack_perm lt x ys).mem_iff.1 hz) with rfl | hz
      · exact asymm _ _ hxy
      · exact hs.1 z hz
    · rw [List.pairwise_cons]
      refine ⟨?_, List.pairwise_cons.2 hs⟩
      intro z hz
      rcases List.mem_cons.1 hz with rfl | hz
      · simpa using hxy
      · exact negtrans _ _ _ (by simpa using hxy) (hs.1 z hz)

include asymm negtrans in
theorem foldl_insertBack_sorted (l acc : List α)
    (hs : acc.Pairwise (fun a b => lt a b = false)) :
    (l.foldl (fun acc x => insertBack lt x acc) acc).Pairwise (fun a b => lt a b = false) := by
  induction l generalizing acc with
  | nil => exact hs
  | cons x l ih => exact ih _ (insertBack_sorted lt asymm negtrans x acc hs)

include asymm negtrans in
/-- In the sorted slice no element is less than an earlier one. -/
theorem sortSlice_sorted (l : List α) :
    (sortSlice lt l).Pairwise (fun a b => lt b a = false) := by
  unfold sortSlice
  rw [List.pairwise_reverse]
  exact foldl_insertBack_sorted lt asymm negtrans l [] List.Pairwise.nil

theorem foldl_insertBack_of_sorted (l acc : List α)
    (hs : (acc.reverse ++ l).Pairwise (fun a b => lt b a = false)) :
    l.foldl (fun acc x => insertBack lt x acc) acc = l.reverse ++ acc := by
  induction l generalizing acc with
  | nil => rfl
  | cons x l ih =>
    rw [List.foldl_cons]
    have hx : insertBack lt x acc = x :: acc := by
      cases acc with
      | nil => rfl
      | cons y ys =>
        rw [insertBack]
        have : lt x y = false := by
          rw [List.pairwise_append] at hs
          exact hs.2.2 y (by simp) x (by simp)
        simp [this]
    rw [hx, ih (x :: acc) (by simpa using hs)]
    simp

/-- Sorting a sorted slice changes nothing. -/
theorem sortSlice_of_sorted (l : List α) (hs : l.Pairwise (fun a b => lt b a = false)) :
    sortSlice lt l = l := by
  unfold sortSlice
  rw [foldl_insertBack_of_sorted lt l [] (by simpa using hs)]
  simp

include asymm negtrans in
theorem sortSlice_idem (l : List α) : sortSlice lt (sortSlice lt l) = sortSlice lt l :=
  sortSlice_of_sorted lt _ (sortSlice_sorted lt asymm negtrans l)

theorem sortSlice_nil : sortSlice lt ([] : List α) = [] := rfl

theorem sortSlice_eq_nil (l : List α) : sortSlice lt l = [] ↔ l = [] := by
  constructor
  · intro h
    have := (sortSlice_perm lt l).length_eq
    rw [h] at this
    exact List.length_eq_zero.1 this.symm
  · rintro rfl; rfl

end sort

/-! ## The comparison of sortChildren -/

theorem less_asymm (h : Heap) (a b : Nat) (hab : less h a b = true) : less h b a = false := by
  unfold less at *
  cases ha : (read h a).IsDir <;> cases hb : (read h b).IsDir <;> simp [ha, hb] at hab ⊢
  · exact le_of_lt hab
  · exact le_of_lt hab

theorem less_negtrans (h : Heap) (a b c : Nat) (hab : less h a b = false)
    (hbc : less h b c = false) : less h a c = false := by
  unfold less at *
  cases ha : (read h a).IsDir <;> cases hb : (read h b).IsDir <;>
    cases hc : (read h c).IsDir <;> simp [ha, hb, hc] at hab hbc ⊢
  · exact le_trans hbc hab
  · exact le_trans hbc hab

theorem sortedChildren_perm (h : Heap) (n : Nat) :
    (sortedChildren h n).Perm (read h n).Children := sortSlice_perm _ _

theorem sortedChildren_sorted (h : Heap) (n : Nat) :
    (sortedChildren h n).Pairwise (fun a b => less h b a = false) :=
  sortSlice_sorted _ (less_asymm h) (less_negtrans h) _

/-! ## Heaps that differ by sorted Children -/

theorem sim_refl (h : Heap) : Sim h h := ⟨rfl, fun _ => ⟨rfl, Or.inl rfl⟩⟩

theorem sim_name {h g : Heap} (s : Sim h g) (n : Nat) : (read g n).Name = (read h n).Name := by
  have := (s.2 n).1; rw [this]

theorem sim_isDir {h g : Heap} (s : Sim h g) (n : Nat) :
    (read g n).IsDir = (read h n).IsDir := by
  have := (s.2 n).1; rw [this]

theorem sim_less {h g : Heap} (s : Sim h g) : less g = less h := by
  funext a b
  simp [less, sim_name s, sim_isDir s]

theorem sim_sorted {h g : Heap} (s : Sim h g) (n : Nat) :
    sortSlice (less g) (read g n).Children = sortedChildren h n := by
  rw [sim_less s]
  rcases (s.2 n).2 with h1 | h1
  · rw [h1]; rfl
  · rw [h1]; exact sortSlice_idem _ (less_asymm h) (less_negtrans h) _

theorem sim_children_eq_nil {h g : Heap} (s : Sim h g) (n : Nat) :
    (read g n).Children = [] ↔ sortedChildren h n = [] := by
  rcases (s.2 n).2 with h1 | h1
  · rw [h1, sortedChildren, sortSlice_eq_nil]
  · rw [h1]

/-- Sorting a slice in place keeps the heap similar to the original, and leaves the
node's children in printing order. -/
theorem sim_sortChildren {h g : Heap} (s : Sim h g) (n : Nat) :
    Sim h (sortChildren g n) ∧ (read (sortChildren g n) n).Children = sortedChildren h n := by
  by_cases hn : n < g.length
  · have hread : read (sortChildren g n) n =
        { read g n with Children := sortedChildren h n } := by
      unfold sortChildren
      rw [read_write_same _ _ _ hn, sim_sorted s]
    refine ⟨⟨by simp [sortChildren, length_write, s.1], ?_⟩, by rw [hread]⟩
    intro k
    by_cases hk : k = n
    · subst hk
      rw [hread]
      refine ⟨?_, Or.inr rfl⟩
      have := (s.2 k).1
      rw [this]
    · unfold sortChildren
      rw [read_write_ne _ _ _ _ (Ne.symm hk)]
      exact s.2 k
  · have hsame : sortChildren g n = g := by
      unfold sortChildren write
      exact List.set_eq_of_length_le (Nat.le_of_not_lt hn)
    rw [hsame]
    refine ⟨s, ?_⟩
    have h1 : (read g n).Children = [] := by
      rw [read_of_le _ _ (Nat.le_of_not_lt hn)]; rfl
    rw [h1]
    exact ((sim_children_eq_nil s n).1 h1).symm

/-! ## The writer -/

theorem emit_nil (w : Writer) : emit w [] = w := rfl

theorem emit_cons (w : Writer) (d : String) (ds : List String) :
    emit w (d :: ds) = emit (w.Write d).1 ds := rfl

theorem emit_append (w : Writer) (a b : List String) :
    emit w (a ++ b) = emit (emit w a) b := by
  simp [emit, List.foldl_append]

theorem emit_calls (w : Writer) (ds : List String) :
    (emit w ds).calls = w.calls + ds.length := by
  induction ds generalizing w with
  | nil => rfl
  | cons d ds ih =>
    rw [emit_cons, ih]
    have : (w.Write d).1.calls = w.calls + 1 := by
      unfold Writer.Write; split <;> rfl
    rw [this, List.length_cons]; omega

theorem emit_fails (w : Writer) (ds : List String) : (emit w ds).fails = w.fails := by
  induction ds generalizing w with
  | nil => rfl
  | cons d ds ih =>
    rw [emit_cons, ih]
    unfold Writer.Write; split <;> rfl

theorem emit_written (w : Writer) (hw : ∀ k, w.fails k = none) (ds : List String) :
    (emit w ds).written = w.written ++ ds := by
  induction ds generalizing w with
  | nil => simp [emit_nil]
  | cons d ds ih =>
    rw [emit_cons]
    have h1 : w.Write d = ({ w with written := w.written ++ [d], calls := w.calls + 1 }, none) := by
      unfold Writer.Write; rw [hw]
    rw [h1, ih _ (by simpa using hw)]
    simp

/-! ## The padding -/

theorem padding_append (flags : List Bool) (last : Bool) :
    padding (flags ++ [last]) = padding flags ++ (if last then boxSpace else boxVerticalSpace) := by
  induction flags with
  | nil => cases last <;> rfl
  | cons b flags ih =>
    rw [List.cons_append, padding, padding, ih, String.append_assoc]

theorem line_eq (pfx name : String) (last : Bool) :
    pfx ++ (if last then boxUpAndRight else boxVerticalRight) ++ boxHorizontal ++ " " ++ name
        ++ "\n" = pfx ++ connectorOf last ++ name ++ "\n" := by
  have h1 : boxUpAndRight ++ boxHorizontal ++ " " = "└── " := by decide
  have h2 : boxVerticalRight ++ boxHorizontal ++ " " = "├── " := by decide
  cases last
  · simp only [connectorOf, Bool.false_eq_true, if_false, ← h2, String.append_assoc]
  · simp only [connectorOf, if_true, ← h1, String.append_assoc]

/-! ## The traversal writes the specified lines -/

theorem specLines_leaf (h : Heap) (kids : Nat → List Nat) (d : Nat) (flags : List Bool)
    (n : Nat) (hn : kids n = []) : specLines h kids d flags n = [] := by
  cases d with
  | zero => rfl
  | succ d => simp [specLines, hn, specLoop]

theorem printLoop_spec (h : Heap)
    (callee : Heap → Writer → List Nat → String → Heap × Writer)
    (sub : List Bool → Nat → List String)
    (hcallee : ∀ g w n flags, Sim h g → (read g n).Children = sortedChildren h n →
      ∃ g', callee g w (read g n).Children (padding flags) = (g', emit w (sub flags n)) ∧
        Sim h g')
    (hleaf : ∀ flags n, sortedChildren h n = [] → sub flags n = [])
    (len : Nat) (flags : List Bool) :
    ∀ (rest : List Nat) (i : Nat) (g : Heap) (w : Writer), Sim h g → i + rest.length = len →
      ∃ g', ASCIIPrinter.printLoop callee len (padding flags) rest i g w =
          (g', emit w (specLoop h sub flags rest)) ∧ Sim h g' := by
  intro rest
  induction rest with
  | nil =>
    intro i g w s _
    exact ⟨g, rfl, s⟩
  | cons c rest ih =>
    intro i g w s hlen
    have hlast : decide (i = len - 1) = rest.isEmpty := by
      cases rest with
      | nil => simp at hlen ⊢; omega
      | cons a l => simp at hlen ⊢; omega
    have hname : (if (read g c).IsDir then (read g c).Name ++ "/" else (read g c).Name) =
        displayName h c := by
      simp [displayName, sim_name s, sim_isDir s]
    have hline : (Fprintf w (padding flags ++
          (if decide (i = len - 1) = true then boxUpAndRight else boxVerticalRight) ++
          boxHorizontal ++ " " ++
          (if (read g c).IsDir then (read g c).Name ++ "/" else (read g c).Name) ++ "\n")).1 =
        emit w [padding flags ++ connectorOf rest.isEmpty ++ displayName h c ++ "\n"] := by
      rw [hname, hlast, line_eq]; rfl
    rw [ASCIIPrinter.printLoop]
    simp only []
    rw [hline]
    by_cases hch : (read g c).Children.length > 0
    · rw [if_pos hch]
      obtain ⟨s1, hc1⟩ := sim_sortChildren s c
      have hpfx : (if decide (i = len - 1) = true then padding flags ++ boxSpace
          else padding flags ++ boxVerticalSpace) = padding (flags ++ [rest.isEmpty]) := by
        rw [hlast, padding_append]; cases rest.isEmpty <;> simp
      rw [hpfx]
      obtain ⟨g2, hg2, s2⟩ := hcallee (sortChildren g c)
        (emit w [padding flags ++ connectorOf rest.isEmpty ++ displayName h c ++ "\n"])
        c (flags ++ [rest.isEmpty]) s1 hc1
      rw [hg2]
      obtain ⟨g3, hg3, s3⟩ := ih (i + 1) g2 _ s2 (by simp at hlen; omega)
      refine ⟨g3, ?_, s3⟩
      simp only []
      rw [hg3, specLoop, ← emit_append, ← emit_append]
      simp
    · rw [if_neg hch]
      have hnil : (read g c).Children = [] := by
        cases hcc : (read g c).Children with
        | nil => rfl
        | cons a l => rw [hcc] at hch; simp at hch
      have hsub : sub (flags ++ [rest.isEmpty]) c = [] :=
        hleaf _ c ((sim_children_eq_nil s c).1 hnil)
      obtain ⟨g3, hg3, s3⟩ := ih (i + 1) g _ s (by simp at hlen; omega)
      refine ⟨g3, ?_, s3⟩
      simp only []
      rw [hg3, specLoop, hsub, ← emit_append]
      simp

/-- The recursive printer writes, below a node whose children are in printing order,
exactly the specified lines, and only sorts `Children` slices. -/
theorem printChildren_spec (h : Heap) :
    ∀ (fuel : Nat) (g : Heap) (w : Writer) (n : Nat) (flags : List Bool), Sim h g →
      (read g n).Children = sortedChildren h n →
      ∃ g', ASCIIPrinter.printChildren fuel g w (read g n).Children (padding flags) =
          (g', emit w (specLines h (sortedChildren h) fuel flags n)) ∧ Sim h g' := by
  intro fuel
  induction fuel with
  | zero =>
    intro g w n flags s _
    exact ⟨g, rfl, s⟩
  | succ fuel ih =>
    intro g w n flags s hc
    rw [ASCIIPrinter.printChildren, specLines]
    rw [hc]
    exact printLoop_spec h (ASCIIPrinter.printChildren fuel)
      (specLines h (sortedChildren h) fuel) ih
      (fun flags n hn => specLines_leaf h _ fuel flags n hn)
      (sortedChildren h n).length flags (sortedChildren h n) 0 g w s (by simp)

/-! ## The two renderers share the traversal -/

theorem markdown_printLoop_eq (callee : Heap → Writer → List Nat → String → Heap × Writer)
    (len : Nat) (pfx : String) :
    ∀ (rest : List Nat) (i : Nat) (h : Heap) (w : Writer),
      MarkdownPrinter.printLoop callee len pfx rest i h w =
        ASCIIPrinter.printLoop callee len pfx rest i h w := by
  intro rest
  induction rest with
  | nil => intro i h w; rfl
  | cons c rest ih =>
    intro i h w
    rw [MarkdownPrinter.printLoop, ASCIIPrinter.printLoop]
    simp only [ih]

theorem markdown_printChildren_eq :
    ∀ fuel, MarkdownPrinter.printChildren fuel = ASCIIPrinter.printChildren fuel := by
  intro fuel
  induction fuel with
  | zero => rfl
  | succ fuel ih =>
    funext h w children pfx
    simp only [MarkdownPrinter.printChildren, ASCIIPrinter.printChildren, ih,
      markdown_printLoop_eq]

/-! ## Print -/

/-- What `ASCIIPrinter.Print` does on a non-nil root: the writer receives the root line
and the specified lines, the error is nil, and the heap only has slices sorted. -/
theorem ascii_print_spec (fuel : Nat) (p : ASCIIPrinter) (h : Heap) (r : Nat) :
    ∃ g', ASCIIPrinter.Print fuel p h (some r) =
      (g', ASCIIPrinter.mk (emit p.writer
        (((read h r).Name ++ "\n") :: specLines h (sortedChildren h) fuel [] r)), none) ∧
      Sim h g' := by
  obtain ⟨s1, hc1⟩ := sim_sortChildren (sim_refl h) r
  obtain ⟨g', hg', s'⟩ := printChildren_spec h fuel (sortChildren h r)
    (Fprintln p.writer (read h r).Name).1 r [] s1 hc1
  refine ⟨g', ?_, s'⟩
  rw [ASCIIPrinter.Print]
  simp only []
  have hp : padding [] = "" := rfl
  rw [hp] at hg'
  rw [hg']
  rfl

/-- What `MarkdownPrinter.Print` does on a non-nil root. -/
theorem markdown_print_spec (fuel : Nat) (p : MarkdownPrinter) (now : String) (h : Heap)
    (r : Nat) :
    ∃ g', MarkdownPrinter.Print fuel p now h (some r) =
      (g', MarkdownPrinter.mk (emit p.writer
        (MarkdownPrinter.frontMatter p (read h r).Name now ++ ["```" ++ "\n"] ++
          (((read h r).Name ++ "\n") :: specLines h (sortedChildren h) fuel [] r) ++
          ["```" ++ "\n"])) p.repoURL p.branchName, none) ∧
      Sim h g' := by
  obtain ⟨s1, hc1⟩ := sim_sortChildren (sim_refl h) r
  obtain ⟨g', hg', s'⟩ := printChildren_spec h fuel (sortChildren h r)
    (Fprintln (Fprintln (Fprintln (Fprintf (Fprintf (Fprintf (Fprintf p.writer
        ("# " ++ (read h r).Name ++ " 目录结构\n\n")).1
        ("**仓库地址**: [" ++ p.repoURL ++ "](" ++ p.repoURL ++ ")  \n")).1
        ("**分支**: `" ++ p.branchName ++ "`  \n")).1
        ("**生成时间**: " ++ now ++ "\n\n")).1 "---").1 "```").1 (read h r).Name).1 r [] s1 hc1
  refine ⟨g', ?_, s'⟩
  rw [MarkdownPrinter.Print]
  simp only []
  have hp : padding [] = "" := rfl
  rw [hp] at hg'
  rw [markdown_printChildren_eq, hg']
  simp only [MarkdownPrinter.frontMatter, emit_append, emit_cons, emit_nil, List.cons_append,
    List.nil_append, Fprintln, Fprintf]

/-! ## Finite unfolding -/

theorem TreeAt.mono {h : Heap} {n d : Nat} (t : TreeAt h n d) : ∀ d', d ≤ d' → TreeAt h n d' := by
  induction t with
  | node n d _ ih =>
    intro d' hd
    obtain ⟨e, rfl⟩ : ∃ e, d' = e + 1 := ⟨d' - 1, by omega⟩
    exact TreeAt.node n e (fun c hc => ih c hc e (by omega))

/-- A heap whose children are allocated after their parents unfolds within its size. -/
theorem treeAt_of_ranked (h : Heap)
    (hr : ∀ n c, c ∈ (read h n).Children → n < c ∧ c < h.length) :
    ∀ k n, h.length ≤ n + k + 1 → TreeAt h n (k + 1) := by
  intro k
  induction k with
  | zero =>
    intro n hn
    refine TreeAt.node n 0 (fun c hc => ?_)
    have := hr n c hc
    omega
  | succ k ih =>
    intro n hn
    refine TreeAt.node n (k + 1) (fun c hc => ?_)
    have := hr n c hc
    exact ih c (by omega)

theorem specLoop_congr (h : Heap) (sub1 sub2 : List Bool → Nat → List String)
    (l : List Nat) (hsub : ∀ c ∈ l, ∀ f, sub1 f c = sub2 f c) (flags : List Bool) :
    specLoop h sub1 flags l = specLoop h sub2 flags l := by
  induction l with
  | nil => rfl
  | cons c l ih =>
    rw [specLoop, specLoop, hsub c (List.mem_cons_self _ _),
      ih (fun c hc => hsub c (List.mem_cons_of_mem _ hc))]

/-- Below a node that unfolds within depth `d`, the specified lines do not depend on the
depth bound once it is at least `d - 1`. -/
theorem specLines_stable (h : Heap) (kids : Nat → List Nat)
    (hk : ∀ n c, c ∈ kids n → c ∈ (read h n).Children) {n d : Nat} (t : TreeAt h n d) :
    ∀ d1 d2 flags, d ≤ d1 + 1 → d ≤ d2 + 1 →
      specLines h kids d1 flags n = specLines h kids d2 flags n := by
  induction t with
  | node n d hc ih =>
    intro d1 d2 flags h1 h2
    have hleaf : d = 0 → kids n = [] := by
      intro hd
      cases hs : kids n with
      | nil => rfl
      | cons a l =>
        have := hc a (hk n a (by rw [hs]; simp))
        rw [hd] at this
        cases this
    cases d1 with
    | zero =>
      rw [specLines_leaf h kids _ flags n (hleaf (by omega)),
        specLines_leaf h kids _ flags n (hleaf (by omega))]
    | succ e1 =>
      cases d2 with
      | zero =>
        rw [specLines_leaf h kids _ flags n (hleaf (by omega)),
          specLines_leaf h kids _ flags n (hleaf (by omega))]
      | succ e2 =>
        rw [specLines, specLines]
        exact specLoop_congr h _ _ _
          (fun c hc f => ih c (hk n c hc) e1 e2 f (by omega) (by omega)) flags

theorem mem_sortedChildren (h : Heap) (n c : Nat) (hc : c ∈ sortedChildren h n) :
    c ∈ (read h n).Children := (sortedChildren_perm h n).mem_iff.1 hc

theorem preorder_stable (h : Heap) {n d : Nat} (t : TreeAt h n d) :
    ∀ d1 d2, d ≤ d1 → d ≤ d2 → preorder h d1 n = preorder h d2 n := by
  induction t with
  | node n d _ ih =>
    intro d1 d2 h1 h2
    obtain ⟨e1, rfl⟩ : ∃ e, d1 = e + 1 := ⟨d1 - 1, by omega⟩
    obtain ⟨e2, rfl⟩ : ∃ e, d2 = e + 1 := ⟨d2 - 1, by omega⟩
    show n :: (sortedChildren h n).flatMap (preorder h e1) =
      n :: (sortedChildren h n).flatMap (preorder h e2)
    congr 1
    apply List.flatMap_congr
    intro c hc
    exact ih c (mem_sortedChildren h n c hc) e1 e2 (by omega) (by omega)

/-! ## Lines and nodes -/

theorem specLoop_preorder (h : Heap) (sub : List Bool → Nat → List String)
    (below : Nat → List Nat)
    (hsub : ∀ flags c, List.Forall₂ (LineOf h) (sub flags c) (below c)) (flags : List Bool)
    (l : List Nat) :
    List.Forall₂ (LineOf h) (specLoop h sub flags l) (l.flatMap (fun c => c :: below c)) := by
  induction l with
  | nil => exact List.Forall₂.nil
  | cons c l ih =>
    rw [specLoop, List.flatMap_cons, List.cons_append]
    exact List.Forall₂.cons ⟨flags, l.isEmpty, rfl⟩ (List.rel_append (hsub _ c) ih)

/-- The specified lines below a node are the lines of its descendants in pre-order. -/
theorem specLines_preorder (h : Heap) :
    ∀ d flags n, List.Forall₂ (LineOf h) (specLines h (sortedChildren h) d flags n)
      ((sortedChildren h n).flatMap (preorder h d)) := by
  intro d
  induction d with
  | zero =>
    intro flags n
    have : (sortedChildren h n).flatMap (preorder h 0) = [] := by
      simp [preorder]
    rw [this]
    exact List.Forall₂.nil
  | succ d ih =>
    intro flags n
    rw [specLines]
    have : preorder h (d + 1) = fun c => c :: (sortedChildren h c).flatMap (preorder h d) := by
      funext c; rfl
    rw [this]
    exact specLoop_preorder h _ _ (fun f c => ih f c) flags _

theorem count_padding (flags : List Bool) : (padding flags).data.count '\n' = 0 := by
  induction flags with
  | nil => rfl
  | cons b flags ih =>
    rw [padding, String.data_append, List.count_append, ih]
    cases b <;> rfl

theorem count_line (h : Heap) (n : Nat) (hn : '\n' ∉ (read h n).Name.data) (flags : List Bool)
    (last : Bool) :
    (padding flags ++ connectorOf last ++ displayName h n ++ "\n").data.count '\n' = 1 := by
  have h1 : (connectorOf last).data.count '\n' = 0 := by cases last <;> rfl
  have h2 : (displayName h n).data.count '\n' = 0 := by
    unfold displayName
    split_ifs
    · rw [String.data_append, List.count_append, List.count_eq_zero_of_not_mem hn]; rfl
    · exact List.count_eq_zero_of_not_mem hn
  simp only [String.data_append, List.count_append, count_padding, h1, h2]
  rfl

theorem lineCount_join (lines : List String) (hl : ∀ l ∈ lines, l.data.count '\n' = 1) :
    lineCount (String.join lines) = lines.length := by
  unfold lineCount
  rw [String.data_join, List.count_flatten]
  induction lines with
  | nil => rfl
  | cons l ls ih =>
    simp only [List.map_cons, List.sum_cons, List.length_cons]
    rw [hl l (List.mem_cons_self _ _), ih (fun l hl' => hl l (List.mem_cons_of_mem _ hl'))]
    omega

/-! ## The tree built from a list of entries -/

/-- C1: the tree returned by `buildTree` has a node reached from the root by the
non-empty child-name sequence `s` exactly when `s` is a prefix of the sequence of
non-empty segments of some entry's path; every entry's full segment sequence reaches a
node; a name sequence reaches at most one node, every node of the heap is reached by
some name sequence and by only one (one node per unique path prefix). -/
theorem buildTree_nodes (blobs : List GitBlob) (rootName : String) :
    (∀ s, s ≠ [] →
      (descend (buildTree blobs rootName).1 (buildTree blobs rootName).2 s ≠ [] ↔
        ∃ e ∈ blobs, s <+: segments e.Path)) ∧
    (∀ e ∈ blobs, ∃ n,
      descend (buildTree blobs rootName).1 (buildTree blobs rootName).2 (segments e.Path)
        = [n]) ∧
    (∀ s, (descend (buildTree blobs rootName).1 (buildTree blobs rootName).2 s).length ≤ 1) ∧
    (∀ n, n < (buildTree blobs rootName).1.length → ∃ s,
      descend (buildTree blobs rootName).1 (buildTree blobs rootName).2 s = [n]) ∧
    (∀ s t n, n ∈ descend (buildTree blobs rootName).1 (buildTree blobs rootName).2 s →
      n ∈ descend (buildTree blobs rootName).1 (buildTree blobs rootName).2 t → s = t) := by
  have b := buildTree_built blobs rootName
  rw [buildTree_root]
  refine ⟨?_, ?_, ?_, ?_, ?_⟩
  · intro s hs
    rw [← b.paths s hs, b.wf.descend_eq]
    cases walk (buildTree blobs rootName).1 0 s <;> simp
  · intro e he
    by_cases hs : segments e.Path = []
    · exact ⟨0, by rw [hs]; rfl⟩
    · obtain ⟨n, hn⟩ := Option.isSome_iff_exists.1
        ((b.paths _ hs).2 ⟨e, he, List.prefix_refl _⟩)
      exact ⟨n, (b.wf.descend_single 0 _ n).2 hn⟩
  · intro s
    rw [b.wf.descend_eq]
    cases walk (buildTree blobs rootName).1 0 s <;> simp
  · intro n hn
    obtain ⟨s, hs⟩ := b.allReach n hn
    exact ⟨s, (b.wf.descend_single 0 s n).2 hs⟩
  · intro s t n hs ht
    exact b.wf.walk_inj ((b.wf.mem_descend 0 s n).1 hs) ((b.wf.mem_descend 0 t n).1 ht)

/-- Witness for C1 on the list with the one entry `a/b.txt`. -/
theorem buildTree_nodes_witness :
    (descend (buildTree [fileAB] "repo").1 (buildTree [fileAB] "repo").2 ["a"] ≠ [] ↔
        ∃ e ∈ [fileAB], ["a"] <+: segments e.Path) ∧
    (∃ n, descend (buildTree [fileAB] "repo").1 (buildTree [fileAB] "repo").2
        (segments fileAB.Path) = [n]) ∧
    (∃ s, descend (buildTree [fileAB] "repo").1 (buildTree [fileAB] "repo").2 s = [2]) :=
  ⟨(buildTree_nodes [fileAB] "repo").1 ["a"] (by decide),
   (buildTree_nodes [fileAB] "repo").2.1 fileAB (by decide),
   (buildTree_nodes [fileAB] "repo").2.2.2.1 2 (by decide)⟩

/-- C2, as stated, fails: in the tree of `[a/b.txt (file), a (directory)]`, whose
paths are distinct, the node reached by the segments of the entry `a` exists and has no
`Meta`. -/
theorem meta_of_existing_node_counterexample :
    ([fileAB, dirA].Pairwise (fun x y => x.Path ≠ y.Path)) ∧ dirA ∈ [fileAB, dirA] ∧
    descend (buildTree [fileAB, dirA] "repo").1 (buildTree [fileAB, dirA] "repo").2
      (segments dirA.Path) = [1] ∧
    (read (buildTree [fileAB, dirA] "repo").1 1).Meta = none ∧
    (read (buildTree [fileAB, dirA] "repo").1 1).Meta ≠ some dirA := by
  decide

/-- C2, amended: for every entry with at least one segment, the node reached by its
segments exists, and its `Meta` is the entry exactly when the entry created the node as
its final part: it is the first entry of the list whose segment sequence starts with
these segments, and its path ends there (non-empty last part).  In general the `Meta`
of the node is what the first entry through it gave it: that entry if its path ends
there, nothing otherwise. -/
theorem meta_of_entry_node (blobs : List GitBlob) (rootName : String) (e : GitBlob)
    (he : e ∈ blobs) (hs : segments e.Path ≠ []) :
    ∃ n e0, descend (buildTree blobs rootName).1 (buildTree blobs rootName).2
        (segments e.Path) = [n] ∧
      firstThrough blobs (segments e.Path) = some e0 ∧
      (read (buildTree blobs rootName).1 n).Meta =
        (if endsAt e0 (segments e.Path) then some e0 else none) ∧
      ((read (buildTree blobs rootName).1 n).Meta = some e ↔
        (firstThrough blobs (segments e.Path) = some e ∧
          endsAt e (segments e.Path) = true)) := by
  have b := buildTree_built blobs rootName
  rw [buildTree_root]
  obtain ⟨n, hn⟩ := Option.isSome_iff_exists.1
    ((b.paths _ hs).2 ⟨e, he, List.prefix_refl _⟩)
  obtain ⟨e0, hf, -, -, hmeta, -⟩ := b.fields _ n hs hn
  refine ⟨n, e0, (b.wf.descend_single 0 _ n).2 hn, hf, hmeta, ?_⟩
  rw [hmeta, hf]
  constructor
  · intro h1
    by_cases h2 : endsAt e0 (segments e.Path) = true
    · rw [if_pos h2] at h1
      cases h1
      exact ⟨rfl, h2⟩
    · rw [if_neg h2] at h1; cases h1
  · rintro ⟨h1, h2⟩
    cases h1
    rw [if_pos h2]

/-- Witness for the amended C2: the entry `a/b.txt` in `[a/b.txt, a]`. -/
theorem meta_of_entry_node_witness :
    ∃ n e0, descend (buildTree [fileAB, dirA] "repo").1 (buildTree [fileAB, dirA] "repo").2
        (segments fileAB.Path) = [n] ∧
      firstThrough [fileAB, dirA] (segments fileAB.Path) = some e0 ∧
      (read (buildTree [fileAB, dirA] "repo").1 n).Meta =
        (if endsAt e0 (segments fileAB.Path) then some e0 else none) ∧
      ((read (buildTree [fileAB, dirA] "repo").1 n).Meta = some fileAB ↔
        (firstThrough [fileAB, dirA] (segments fileAB.Path) = some fileAB ∧
          endsAt fileAB (segments fileAB.Path) = true)) :=
  meta_of_entry_node [fileAB, dirA] "repo" fileAB (by decide) (by decide)

theorem firstThrough_some {blobs : List GitBlob} {s : List String} {e : GitBlob}
    (h : firstThrough blobs s = some e) : e ∈ blobs ∧ s <+: segments e.Path := by
  unfold firstThrough at h
  refine ⟨List.mem_of_find?_eq_some h, ?_⟩
  have := List.find?_some h
  simpa using this

/-- C3, as stated, fails: `[a/b.txt, a]` and its permutation `[a, a/b.txt]` both have
one node at the path `a`, with different `Meta`. -/
theorem buildTree_perm_counterexample :
    [fileAB, dirA].Perm [dirA, fileAB] ∧
    descend (buildTree [fileAB, dirA] "repo").1 (buildTree [fileAB, dirA] "repo").2 ["a"]
      = [1] ∧
    descend (buildTree [dirA, fileAB] "repo").1 (buildTree [dirA, fileAB] "repo").2 ["a"]
      = [1] ∧
    (read (buildTree [fileAB, dirA] "repo").1 1).Meta = none ∧
    (read (buildTree [dirA, fileAB] "repo").1 1).Meta = some dirA :=
  ⟨List.Perm.swap _ _ _, by decide, by decide, by decide, by decide⟩

/-- C3, amended: for a permutation of the entry list the two trees have the same
root-to-node name paths, with the same `Name` at each; `IsDir` and `Meta` at a path are
the same whenever the first entry through the path is the same in both orders; and
`IsDir` is the same whenever all entries through the path agree on the flag they give
it (true unless the entry is not of type "tree" and its path ends there). -/
theorem buildTree_perm (blobs blobs' : List GitBlob) (rootName : String)
    (hp : blobs.Perm blobs') :
    (∀ s, (descend (buildTree blobs rootName).1 (buildTree blobs rootName).2 s).length =
      (descend (buildTree blobs' rootName).1 (buildTree blobs' rootName).2 s).length) ∧
    (∀ s n n', descend (buildTree blobs rootName).1 (buildTree blobs rootName).2 s = [n] →
      descend (buildTree blobs' rootName).1 (buildTree blobs' rootName).2 s = [n'] →
      (read (buildTree blobs rootName).1 n).Name = (read (buildTree blobs' rootName).1 n').Name ∧
      (firstThrough blobs s = firstThrough blobs' s →
        (read (buildTree blobs rootName).1 n).IsDir =
          (read (buildTree blobs' rootName).1 n').IsDir ∧
        (read (buildTree blobs rootName).1 n).Meta =
          (read (buildTree blobs' rootName).1 n').Meta) ∧
      ((∀ e ∈ blobs, ∀ e' ∈ blobs, s <+: segments e.Path → s <+: segments e'.Path →
          (e.Typ == "tree" || !endsAt e s) = (e'.Typ == "tree" || !endsAt e' s)) →
        (read (buildTree blobs rootName).1 n).IsDir =
          (read (buildTree blobs' rootName).1 n').IsDir)) := by
  have b := buildTree_built blobs rootName
  have b' := buildTree_built blobs' rootName
  rw [buildTree_root, buildTree_root]
  constructor
  · intro s
    by_cases hs : s = []
    · subst hs; rfl
    · have h1 := b.paths s hs
      have h2 := b'.paths s hs
      have h3 : (walk (buildTree blobs rootName).1 0 s).isSome ↔
          (walk (buildTree blobs' rootName).1 0 s).isSome := by
        rw [h1, h2]
        constructor
        · rintro ⟨e, he, hpre⟩; exact ⟨e, hp.mem_iff.1 he, hpre⟩
        · rintro ⟨e, he, hpre⟩; exact ⟨e, hp.mem_iff.2 he, hpre⟩
      rw [b.wf.descend_eq, b'.wf.descend_eq]
      cases hw : walk (buildTree blobs rootName).1 0 s <;>
        cases hw' : walk (buildTree blobs' rootName).1 0 s <;> simp [hw, hw'] at h3 ⊢
  · intro s n n' hn hn'
    rw [b.wf.descend_single] at hn
    rw [b'.wf.descend_single] at hn'
    by_cases hs : s = []
    · subst hs
      simp [walk_nil] at hn hn'
      subst hn; subst hn'
      refine ⟨by rw [b.rootName, b'.rootName], fun _ => ⟨by rw [b.rootDir, b'.rootDir],
        by rw [b.rootMeta, b'.rootMeta]⟩, fun _ => by rw [b.rootDir, b'.rootDir]⟩
    · obtain ⟨e0, hf, hname, hdir, hmeta, -⟩ := b.fields s n hs hn
      obtain ⟨e1, hf', hname', hdir', hmeta', -⟩ := b'.fields s n' hs hn'
      refine ⟨?_, ?_, ?_⟩
      · rw [hname] at hname'
        exact Option.some.inj hname'
      · intro heq
        rw [hf, hf'] at heq
        cases heq
        exact ⟨by rw [hdir, hdir'], by rw [hmeta, hmeta']⟩
      · intro hall
        obtain ⟨m0, p0⟩ := firstThrough_some hf
        obtain ⟨m1, p1⟩ := firstThrough_some hf'
        rw [hdir, hdir']
        exact hall e0 m0 e1 (hp.mem_iff.2 m1) p0 p1

/-- Witness for the amended C3: the path `a/b.txt` in `[a/b.txt, a]` and `[a, a/b.txt]`,
through which only the entry `a/b.txt` passes. -/
theorem buildTree_perm_witness :
    (read (buildTree [fileAB, dirA] "repo").1 2).Name =
      (read (buildTree [dirA, fileAB] "repo").1 2).Name ∧
    (read (buildTree [fileAB, dirA] "repo").1 2).IsDir =
      (read (buildTree [dirA, fileAB] "repo").1 2).IsDir ∧
    (read (buildTree [fileAB, dirA] "repo").1 2).Meta =
      (read (buildTree [dirA, fileAB] "repo").1 2).Meta :=
  ⟨((buildTree_perm [fileAB, dirA] [dirA, fileAB] "repo" (List.Perm.swap _ _ _)).2
      ["a", "b.txt"] 2 2 (by decide) (by decide)).1,
   ((buildTree_perm [fileAB, dirA] [dirA, fileAB] "repo" (List.Perm.swap _ _ _)).2
      ["a", "b.txt"] 2 2 (by decide) (by decide)).2.1 (by decide)⟩

/-- C4, as stated, fails: in the tree of `[a (file), a/b (file)]` the node `a` has a
child and `IsDir = false`; in the tree of `[a (file), a (directory)]` the node reached
by the segments of the directory entry has `IsDir = false`. -/
theorem isDir_counterexample :
    descend (buildTree [fileA, fileAslashB] "repo").1 (buildTree [fileA, fileAslashB] "repo").2
      ["a"] = [1] ∧
    (read (buildTree [fileA, fileAslashB] "repo").1 1).Children = [2] ∧
    (read (buildTree [fileA, fileAslashB] "repo").1 1).IsDir = false ∧
    dirA ∈ [fileA, dirA] ∧ dirA.Typ = "tree" ∧
    descend (buildTree [fileA, dirA] "repo").1 (buildTree [fileA, dirA] "repo").2
      (segments dirA.Path) = [1] ∧
    (read (buildTree [fileA, dirA] "repo").1 1).IsDir = false := by
  decide

/-- C4, amended: the root has `IsDir = true`, and a node below the root has
`IsDir = false` exactly when the first entry of the list whose segment sequence passes
through it is not of type "tree" and its path ends at that node; every other node, with
or without children, has `IsDir = true`. -/
theorem isDir_of_built (blobs : List GitBlob) (rootName : String) :
    (read (buildTree blobs rootName).1 (buildTree blobs rootName).2).IsDir = true ∧
    ∀ s n, s ≠ [] →
      descend (buildTree blobs rootName).1 (buildTree blobs rootName).2 s = [n] →
      ∃ e0, firstThrough blobs s = some e0 ∧
        ((read (buildTree blobs rootName).1 n).IsDir = false ↔
          (e0.Typ ≠ "tree" ∧ endsAt e0 s = true)) := by
  have b := buildTree_built blobs rootName
  rw [buildTree_root]
  refine ⟨b.rootDir, ?_⟩
  intro s n hs hn
  rw [b.wf.descend_single] at hn
  obtain ⟨e0, hf, -, hdir, -, -⟩ := b.fields s n hs hn
  refine ⟨e0, hf, ?_⟩
  rw [hdir]
  simp

/-- Witness for the amended C4: the node `a` in the tree of `[a/b.txt, a]`. -/
theorem isDir_of_built_witness :
    ∃ e0, firstThrough [fileAB, dirA] ["a"] = some e0 ∧
      ((read (buildTree [fileAB, dirA] "repo").1 1).IsDir = false ↔
        (e0.Typ ≠ "tree" ∧ endsAt e0 ["a"] = true)) :=
  (isDir_of_built [fileAB, dirA] "repo").2 ["a"] 1 (by decide) (by decide)

/-! ## The rendering of a built tree -/

theorem built_treeAt (blobs : List GitBlob) (rootName : String) :
    TreeAt (buildTree blobs rootName).1 0 (buildTree blobs rootName).1.length := by
  have b := buildTree_built blobs rootName
  have := treeAt_of_ranked _ b.wf.ranked ((buildTree blobs rootName).1.length - 1) 0 (by omega)
  have hpos := b.pos
  have heq : (buildTree blobs rootName).1.length - 1 + 1 = (buildTree blobs rootName).1.length := by
    omega
  rw [heq] at this
  exact this

theorem WF.name_inj {h : Heap} (wf : WF h) {n a b : Nat} (ha : a ∈ (read h n).Children)
    (hb : b ∈ (read h n).Children) (hab : (read h a).Name = (read h b).Name) : a = b := by
  have h1 := (wf.sync n (read h a).Name a).2 ⟨ha, rfl⟩
  have h2 := (wf.sync n (read h a).Name b).2 ⟨hb, hab.symm⟩
  rw [h1] at h2
  exact Option.some.inj h2

theorem WF.names_nodup {h : Heap} (wf : WF h) (n : Nat) :
    ((read h n).Children.map (fun c => (read h c).Name)).Nodup := by
  rw [List.nodup_map_iff_inj_on (wf.nodup n)]
  intro a ha b hb hab
  exact wf.name_inj ha hb hab

theorem dirsFirst_of_not_less (h : Heap) (a b : Nat) (hl : less h b a = false)
    (hne : (read h a).Name ≠ (read h b).Name) : DirsFirstByName h a b := by
  have hdata : (read h a).Name.data ≠ (read h b).Name.data := fun e => hne (String.ext e)
  unfold less at hl
  unfold DirsFirstByName
  cases ha : (read h a).IsDir <;> cases hb : (read h b).IsDir <;> simp [ha, hb] at hl ⊢
  · exact lt_of_le_of_ne hl hdata
  · exact lt_of_le_of_ne hl hdata

/-- When the children of a node have distinct names, no two of them are tied under
`less`, and their printing order lists directories before files and names in strictly
ascending order within each group: it is the only sorted permutation. -/
theorem sortedChildren_order_of_names (h : Heap) (n : Nat)
    (hn : ((read h n).Children.map (fun c => (read h c).Name)).Nodup) :
    (sortedChildren h n).Pairwise (DirsFirstByName h) := by
  have h1 := sortedChildren_sorted h n
  have h2 : (sortedChildren h n).Nodup :=
    (sortedChildren_perm h n).nodup_iff.2 (List.Nodup.of_map _ hn)
  refine (h1.and h2).imp_of_mem ?_
  intro a b ha hb hab
  exact dirsFirst_of_not_less h a b hab.1 (fun e =>
    hab.2 (List.inj_on_of_nodup_map hn (mem_sortedChildren h n a ha)
      (mem_sortedChildren h n b hb) e))

/-- In a well-formed heap the printing order of the children of a node lists
directories before files and names in strictly ascending order within each group. -/
theorem WF.sortedChildren_order {h : Heap} (wf : WF h) (n : Nat) :
    (sortedChildren h n).Pairwise (DirsFirstByName h) := by
  have h1 := sortedChildren_sorted h n
  have h2 : (sortedChildren h n).Nodup := (sortedChildren_perm h n).nodup_iff.2 (wf.nodup n)
  refine (h1.and h2).imp_of_mem ?_
  intro a b ha hb hab
  exact dirsFirst_of_not_less h a b hab.1 (fun e =>
    hab.2 (wf.name_inj (mem_sortedChildren h n a ha) (mem_sortedChildren h n b hb) e))

/-- The lines `ASCIIPrinter.Print` writes to a reliable writer, for any fuel. -/
theorem ascii_written (fuel : Nat) (h : Heap) (r : Nat) :
    (ASCIIPrinter.Print fuel { writer := Writer.reliable } h (some r)).2.1.writer.written =
      ((read h r).Name ++ "\n") :: specLines h (sortedChildren h) fuel [] r := by
  obtain ⟨g', hg', -⟩ := ascii_print_spec fuel { writer := Writer.reliable } h r
  rw [hg']
  simp only []
  rw [emit_written _ (fun _ => rfl)]
  rfl

/-- C5: for a tree returned by `buildTree`, with enough fuel for its depth,
`ASCIIPrinter.Print` writes the root line followed by the lines of the tree in which the
children of every node are listed in the order `sortedChildren`; that order is a
permutation of the node's `Children`, lists every directory before every file, and
within each group has strictly ascending names. -/
theorem print_children_order (blobs : List GitBlob) (rootName : String) (fuel : Nat)
    (hf : (buildTree blobs rootName).1.length ≤ fuel) :
    (ASCIIPrinter.Print fuel { writer := Writer.reliable } (buildTree blobs rootName).1
        (some (buildTree blobs rootName).2)).2.1.writer.written =
      (rootName ++ "\n") :: specLines (buildTree blobs rootName).1
        (sortedChildren (buildTree blobs rootName).1) (buildTree blobs rootName).1.length []
        (buildTree blobs rootName).2 ∧
    ∀ n, (sortedChildren (buildTree blobs rootName).1 n).Perm
        (read (buildTree blobs rootName).1 n).Children ∧
      (sortedChildren (buildTree blobs rootName).1 n).Pairwise
        (DirsFirstByName (buildTree blobs rootName).1) := by
  have b := buildTree_built blobs rootName
  refine ⟨?_, fun n => ⟨sortedChildren_perm _ n, b.wf.sortedChildren_order n⟩⟩
  rw [buildTree_root, ascii_written, b.rootName]
  congr 1
  exact specLines_stable _ _ (mem_sortedChildren _) (built_treeAt blobs rootName) _ _ []
    (Nat.le_succ_of_le hf) (Nat.le_succ _)

/-- Witness for C5: the tree of `[a/b.txt, a]` printed with fuel 3. -/
theorem print_children_order_witness :
    (ASCIIPrinter.Print 3 { writer := Writer.reliable } (buildTree [fileAB, dirA] "repo").1
        (some (buildTree [fileAB, dirA] "repo").2)).2.1.writer.written =
      ("repo" ++ "\n") :: specLines (buildTree [fileAB, dirA] "repo").1
        (sortedChildren (buildTree [fileAB, dirA] "repo").1)
        (buildTree [fileAB, dirA] "repo").1.length [] (buildTree [fileAB, dirA] "repo").2 :=
  (print_children_order [fileAB, dirA] "repo" 3 (by decide)).1

/-- With enough fuel for the depth of the tree, the lines written do not depend on the
fuel. -/
theorem ascii_written_of_treeAt (h : Heap) (r d : Nat) (t : TreeAt h r d) (fuel : Nat)
    (hf : d ≤ fuel) :
    (ASCIIPrinter.Print fuel { writer := Writer.reliable } h (some r)).2.1.writer.written =
      ((read h r).Name ++ "\n") :: specLines h (sortedChildren h) d [] r := by
  rw [ascii_written]
  congr 1
  exact specLines_stable h _ (mem_sortedChildren h) t _ _ [] (Nat.le_succ_of_le hf)
    (Nat.le_succ _)

/-- C6: for every tree in which the children of each node have distinct names, with
enough fuel for its depth, `ASCIIPrinter.Print` writes the root name and then, in
pre-order with siblings in sorted order, for each node the line made of the padding
given by the last/not-last flags of its ancestors below the root (four spaces for a last
sibling, a bar and three spaces otherwise), the connector for its own last/not-last
status, and its display name (`Name`, with "/" for a directory).  The sorted order of
the children of a node is the permutation of `Children` with directories first and
strictly ascending names; the lines of a non-empty sibling sequence are spelled out in
the third part. -/
theorem ascii_lines (h : Heap) (r d : Nat) (t : TreeAt h r d)
    (hnames : ∀ n, ((read h n).Children.map (fun c => (read h c).Name)).Nodup)
    (fuel : Nat) (hf : d ≤ fuel) :
    (ASCIIPrinter.Print fuel { writer := Writer.reliable } h (some r)).2.1.writer.written =
      ((read h r).Name ++ "\n") :: specLines h (sortedChildren h) d [] r ∧
    (∀ n, (sortedChildren h n).Perm (read h n).Children ∧
      (sortedChildren h n).Pairwise (DirsFirstByName h)) ∧
    (∀ e flags n, specLines h (sortedChildren h) (e + 1) flags n =
      specLoop h (specLines h (sortedChildren h) e) flags (sortedChildren h n)) ∧
    (∀ sub flags c rest, specLoop h sub flags (c :: rest) =
      (padding flags ++ (if rest = [] then "└── " else "├── ") ++
        (if (read h c).IsDir then (read h c).Name ++ "/" else (read h c).Name) ++ "\n") ::
      (sub (flags ++ [decide (rest = [])]) c ++ specLoop h sub flags rest)) ∧
    (∀ flags last, padding (flags ++ [last]) =
      padding flags ++ (if last then "    " else "│   ")) := by
  refine ⟨ascii_written_of_treeAt h r d t fuel hf,
    fun n => ⟨sortedChildren_perm h n, sortedChildren_order_of_names h n (hnames n)⟩,
    fun _ _ _ => rfl, ?_, ?_⟩
  · intro sub flags c rest
    cases rest <;> simp [specLoop, connectorOf, displayName]
  · intro flags last
    rw [padding_append]; rfl

/-- Witness for C6: the tree of `[a/b.txt, a]`, of depth 3, printed with fuel 5. -/
theorem ascii_lines_witness :
    (ASCIIPrinter.Print 5 { writer := Writer.reliable } (buildTree [fileAB, dirA] "repo").1
        (some 0)).2.1.writer.written =
      ((read (buildTree [fileAB, dirA] "repo").1 0).Name ++ "\n") ::
        specLines (buildTree [fileAB, dirA] "repo").1
          (sortedChildren (buildTree [fileAB, dirA] "repo").1) 3 [] 0 :=
  (ascii_lines (buildTree [fileAB, dirA] "repo").1 0 3 (built_treeAt [fileAB, dirA] "repo")
    (buildTree_built [fileAB, dirA] "repo").wf.names_nodup 5 (by decide)).1

/-! ## Counting lines -/

theorem specLoop_count (h : Heap) (hn : ∀ n, '\n' ∉ (read h n).Name.data)
    (sub : List Bool → Nat → List String)
    (hsub : ∀ flags c, ∀ l ∈ sub flags c, l.data.count '\n' = 1) (flags : List Bool)
    (cs : List Nat) : ∀ l ∈ specLoop h sub flags cs, l.data.count '\n' = 1 := by
  induction cs with
  | nil => intro l hl; cases hl
  | cons c cs ih =>
    intro l hl
    rw [specLoop] at hl
    rcases List.mem_cons.1 hl with rfl | hl
    · exact count_line h c (hn c) flags _
    · rcases List.mem_append.1 hl with hl | hl
      · exact hsub _ c l hl
      · exact ih l hl

theorem specLines_count (h : Heap) (hn : ∀ n, '\n' ∉ (read h n).Name.data)
    (kids : Nat → List Nat) :
    ∀ d flags n, ∀ l ∈ specLines h kids d flags n, l.data.count '\n' = 1 := by
  intro d
  induction d with
  | zero => intro flags n l hl; cases hl
  | succ d ih =>
    intro flags n l hl
    rw [specLines] at hl
    exact specLoop_count h hn _ (fun f c => ih f c) flags _ l hl

theorem preorder_of_treeAt (h : Heap) {r d : Nat} (t : TreeAt h r d) :
    preorder h d r = r :: (sortedChildren h r).flatMap (preorder h (d - 1)) := by
  cases t with
  | node n e _ => rfl

/-- The pre-order list holds exactly the nodes of the tree. -/
theorem mem_preorder_iff (h : Heap) {r d : Nat} (t : TreeAt h r d) :
    ∀ m, m ∈ preorder h d r ↔ Reachable h r m := by
  induction t with
  | node n d hc ih =>
    intro m
    show m ∈ n :: (sortedChildren h n).flatMap (preorder h d) ↔ _
    rw [List.mem_cons, List.mem_flatMap]
    constructor
    · rintro (rfl | ⟨c, hcm, hm⟩)
      · exact Reachable.self _
      · have hc' := mem_sortedChildren h n c hcm
        exact Reachable.child n c m hc' ((ih c hc' m).1 hm)
    · intro hr
      cases hr with
      | self => exact Or.inl rfl
      | child _ c _ hc' hr' =>
        exact Or.inr ⟨c, (sortedChildren_perm h n).mem_iff.2 hc', (ih c hc' m).2 hr'⟩

theorem WF.walk_of_reachable {h : Heap} (wf : WF h) {r m : Nat} (hr : Reachable h r m) :
    ∃ s, walk h r s = some m := by
  induction hr with
  | self r => exact ⟨[], rfl⟩
  | child r c m hc _ ih =>
    obtain ⟨s, hs⟩ := ih
    refine ⟨(read h c).Name :: s, ?_⟩
    rw [walk_cons, (wf.sync r (read h c).Name c).2 ⟨hc, rfl⟩]
    exact hs

/-- In a well-formed heap the pre-order list has every node once. -/
theorem WF.preorder_nodup {h : Heap} (wf : WF h) {r d : Nat} (t : TreeAt h r d) :
    (preorder h d r).Nodup := by
  induction t with
  | node n d hc ih =>
    show (n :: (sortedChildren h n).flatMap (preorder h d)).Nodup
    rw [List.nodup_cons, List.nodup_flatMap]
    refine ⟨?_, fun c hcm => ih c (mem_sortedChildren h n c hcm), ?_⟩
    · rw [List.mem_flatMap]
      rintro ⟨c, hcm, hm⟩
      have hc' := mem_sortedChildren h n c hcm
      obtain ⟨s, hs⟩ := wf.walk_of_reachable ((mem_preorder_iff h (hc c hc') n).1 hm)
      have h1 := (wf.walk_le hs).1
      have h2 := (wf.ranked n c hc').1
      omega
    · have hnd : (sortedChildren h n).Nodup :=
        (sortedChildren_perm h n).nodup_iff.2 (wf.nodup n)
      refine List.Pairwise.imp_of_mem ?_ hnd
      intro a b ha hb hab
      have ha' := mem_sortedChildren h n a ha
      have hb' := mem_sortedChildren h n b hb
      simp only [Function.onFun]
      rw [List.disjoint_left]
      intro m hma hmb
      obtain ⟨s, hs⟩ := wf.walk_of_reachable ((mem_preorder_iff h (hc a ha') m).1 hma)
      obtain ⟨s', hs'⟩ := wf.walk_of_reachable ((mem_preorder_iff h (hc b hb') m).1 hmb)
      have w1 : walk h n ((read h a).Name :: s) = some m := by
        rw [walk_cons, (wf.sync n (read h a).Name a).2 ⟨ha', rfl⟩]; exact hs
      have w2 : walk h n ((read h b).Name :: s') = some m := by
        rw [walk_cons, (wf.sync n (read h b).Name b).2 ⟨hb', rfl⟩]; exact hs'
      have := wf.walk_inj w1 w2
      simp at this
      exact hab (wf.name_inj ha' hb' this.1)

/-- C7: for every tree whose names contain no line break, with enough fuel for its
depth, the text written by `ASCIIPrinter.Print` has as many lines as the tree has
nodes, the root included; the pre-order list that is counted holds exactly the nodes of
the tree, each of them once when the heap is a well-formed forest.  When moreover the
children of each node have distinct names, the first line is the root's name and the
following lines are, in pre-order with siblings in sorted order (the permutation of
`Children` with directories first and strictly ascending names), the lines of the other
nodes, one per node. -/
theorem ascii_line_per_node (h : Heap) (r d : Nat) (t : TreeAt h r d)
    (hn : ∀ n, '\n' ∉ (read h n).Name.data) (fuel : Nat) (hf : d ≤ fuel) :
    lineCount (ASCIIPrinter.Print fuel { writer := Writer.reliable } h (some r)).2.1.writer.text
      = (preorder h d r).length ∧
    (∀ m, m ∈ preorder h d r ↔ Reachable h r m) ∧
    (WF h → (preorder h d r).Nodup) ∧
    ((∀ n, ((read h n).Children.map (fun c => (read h c).Name)).Nodup) →
      (∃ rest,
        (ASCIIPrinter.Print fuel { writer := Writer.reliable } h (some r)).2.1.writer.written
          = ((read h r).Name ++ "\n") :: rest ∧
        (preorder h d r).head? = some r ∧
        List.Forall₂ (LineOf h) rest (preorder h d r).tail) ∧
      (∀ n, (sortedChildren h n).Perm (read h n).Children ∧
        (sortedChildren h n).Pairwise (DirsFirstByName h))) := by
  have hw := ascii_written_of_treeAt h r d t fuel hf
  have hstable : specLines h (sortedChildren h) d [] r =
      specLines h (sortedChildren h) (d - 1) [] r :=
    specLines_stable h _ (mem_sortedChildren h) t _ _ [] (Nat.le_succ _) (by omega)
  have hpre := specLines_preorder h (d - 1) [] r
  rw [← hstable] at hpre
  have hp := preorder_of_treeAt h t
  refine ⟨?_, mem_preorder_iff h t, fun wf => wf.preorder_nodup t, fun hnames => ⟨?_,
    fun n => ⟨sortedChildren_perm h n, sortedChildren_order_of_names h n (hnames n)⟩⟩⟩
  · unfold Writer.text
    rw [hw, lineCount_join, hp, List.length_cons, List.length_cons, hpre.length_eq]
    intro l hl
    rcases List.mem_cons.1 hl with rfl | hl
    · rw [String.data_append, List.count_append, List.count_eq_zero_of_not_mem (hn r)]; rfl
    · exact specLines_count h hn _ d [] r l hl
  · refine ⟨_, hw, ?_, ?_⟩
    · rw [hp]; rfl
    · rw [hp]; exact hpre

theorem example_names (n : Nat) :
    '\n' ∉ (read (buildTree [fileAB, dirA] "repo").1 n).Name.data := by
  match n with
  | 0 => decide
  | 1 => decide
  | 2 => decide
  | k + 3 =>
    rw [read_of_le _ _ (by
      have : (buildTree [fileAB, dirA] "repo").1.length = 3 := by decide
      omega)]
    decide

/-- Witness for C7: the tree of `[a/b.txt, a]`, of depth 3, printed with fuel 5; its
sibling names are distinct, so the lines follow the pre-order list. -/
theorem ascii_line_per_node_witness :
    lineCount (ASCIIPrinter.Print 5 { writer := Writer.reliable }
      (buildTree [fileAB, dirA] "repo").1 (some 0)).2.1.writer.text
      = (preorder (buildTree [fileAB, dirA] "repo").1 3 0).length ∧
    ∃ rest,
      (ASCIIPrinter.Print 5 { writer := Writer.reliable }
        (buildTree [fileAB, dirA] "repo").1 (some 0)).2.1.writer.written
        = ((read (buildTree [fileAB, dirA] "repo").1 0).Name ++ "\n") :: rest ∧
      (preorder (buildTree [fileAB, dirA] "repo").1 3 0).head? = some 0 ∧
      List.Forall₂ (LineOf (buildTree [fileAB, dirA] "repo").1) rest
        (preorder (buildTree [fileAB, dirA] "repo").1 3 0).tail :=
  ⟨(ascii_line_per_node (buildTree [fileAB, dirA] "repo").1 0 3
      (built_treeAt [fileAB, dirA] "repo") example_names 5 (by decide)).1,
   ((ascii_line_per_node (buildTree [fileAB, dirA] "repo").1 0 3
      (built_treeAt [fileAB, dirA] "repo") example_names 5 (by decide)).2.2.2
      (buildTree_built [fileAB, dirA] "repo").wf.names_nodup).1⟩

/-! ## Markdown and ASCII -/

theorem join_append (a b : List String) : String.join (a ++ b) = String.join a ++ String.join b := by
  apply String.ext
  simp [String.data_join]

theorem join_singleton (a : String) : String.join [a] = a := by
  apply String.ext
  simp [String.data_join]

/-- The lines `MarkdownPrinter.Print` writes to a reliable writer. -/
theorem markdown_written (fuel : Nat) (url branch now : String) (h : Heap) (r : Nat) :
    (MarkdownPrinter.Print fuel
        { writer := Writer.reliable, repoURL := url, branchName := branch } now h
        (some r)).2.1.writer.written =
      MarkdownPrinter.frontMatter
          { writer := Writer.reliable, repoURL := url, branchName := branch }
          (read h r).Name now ++ ["```" ++ "\n"] ++
        (((read h r).Name ++ "\n") :: specLines h (sortedChildren h) fuel [] r) ++
        ["```" ++ "\n"] := by
  obtain ⟨g', hg', -⟩ := markdown_print_spec fuel
    { writer := Writer.reliable, repoURL := url, branchName := branch } now h r
  rw [hg']
  simp only []
  rw [emit_written _ (fun _ => rfl)]
  rfl

/-- C8: for every non-nil tree, the text `MarkdownPrinter.Print` writes is the front
matter, the opening fence line, the text `ASCIIPrinter.Print` writes for the same tree,
and the closing fence line; both calls return no error. -/
theorem markdown_wraps_ascii (fuel : Nat) (url branch now : String) (h : Heap) (r : Nat) :
    (MarkdownPrinter.Print fuel
        { writer := Writer.reliable, repoURL := url, branchName := branch } now h
        (some r)).2.1.writer.text =
      String.join (MarkdownPrinter.frontMatter
          { writer := Writer.reliable, repoURL := url, branchName := branch }
          (read h r).Name now) ++ "```\n" ++
        (ASCIIPrinter.Print fuel { writer := Writer.reliable } h (some r)).2.1.writer.text ++
        "```\n" ∧
    (MarkdownPrinter.Print fuel
        { writer := Writer.reliable, repoURL := url, branchName := branch } now h
        (some r)).2.2 = none ∧
    (ASCIIPrinter.Print fuel { writer := Writer.reliable } h (some r)).2.2 = none := by
  refine ⟨?_, ?_, ?_⟩
  · unfold Writer.text
    rw [markdown_written, ascii_written, join_append, join_append, join_append,
      join_singleton]
    rfl
  · obtain ⟨g', hg', -⟩ := markdown_print_spec fuel
      { writer := Writer.reliable, repoURL := url, branchName := branch } now h r
    rw [hg']
  · obtain ⟨g', hg', -⟩ := ascii_print_spec fuel { writer := Writer.reliable } h r
    rw [hg']

/-! ## Write errors -/

/-- C9, as stated, fails: on a writer whose every `Write` fails, `ASCIIPrinter.Print`
on the tree of `[a/b.txt]` still makes all three `Write` calls and returns no error, and
so does `MarkdownPrinter.Print` with its ten calls. -/
theorem print_write_error_counterexample :
    (Writer.broken.Write "repo\n").2 = some "write: broken pipe" ∧
    (ASCIIPrinter.Print 3 { writer := Writer.broken } (buildTree [fileAB] "repo").1
      (some 0)).2.2 = none ∧
    (ASCIIPrinter.Print 3 { writer := Writer.broken } (buildTree [fileAB] "repo").1
      (some 0)).2.1.writer.calls = 3 ∧
    (MarkdownPrinter.Print 3 (NewMarkdownPrinter Writer.broken "o" "r" "main") "now"
      (buildTree [fileAB] "repo").1 (some 0)).2.2 = none ∧
    (MarkdownPrinter.Print 3 (NewMarkdownPrinter Writer.broken "o" "r" "main") "now"
      (buildTree [fileAB] "repo").1 (some 0)).2.1.writer.calls = 10 := by
  decide

/-- C9, amended: `Print` (ASCII or Markdown) never returns an error, whatever the
writer does, and a failing write does not stop the traversal: the number of `Write`
calls made is the number of lines to write, whether or not writes fail. -/
theorem print_ignores_write_errors (fuel : Nat) (p : ASCIIPrinter) (q : MarkdownPrinter)
    (now : String) (h : Heap) (root : Option Nat) :
    (ASCIIPrinter.Print fuel p h root).2.2 = none ∧
    (MarkdownPrinter.Print fuel q now h root).2.2 = none ∧
    (∀ r, root = some r →
      (ASCIIPrinter.Print fuel p h root).2.1.writer.calls =
        p.writer.calls + 1 + (specLines h (sortedChildren h) fuel [] r).length ∧
      (MarkdownPrinter.Print fuel q now h root).2.1.writer.calls =
        q.writer.calls + 7 + (specLines h (sortedChildren h) fuel [] r).length + 1) := by
  cases root with
  | none =>
    refine ⟨rfl, rfl, ?_⟩
    intro r hr; cases hr
  | some r =>
    obtain ⟨g1, hg1, -⟩ := ascii_print_spec fuel p h r
    obtain ⟨g2, hg2, -⟩ := markdown_print_spec fuel q now h r
    rw [hg1, hg2]
    refine ⟨rfl, rfl, ?_⟩
    intro r' hr
    cases hr
    simp only [emit_calls, List.length_cons, List.length_append, MarkdownPrinter.frontMatter,
      List.length_nil]
    constructor <;> omega

/-- Witness for the amended C9: the broken writer and the tree of `[a/b.txt]`. -/
theorem print_ignores_write_errors_witness :
    (ASCIIPrinter.Print 3 { writer := Writer.broken } (buildTree [fileAB] "repo").1
        (some 0)).2.1.writer.calls =
      Writer.broken.calls + 1 +
        (specLines (buildTree [fileAB] "repo").1 (sortedChildren (buildTree [fileAB] "repo").1)
          3 [] 0).length :=
  ((print_ignores_write_errors 3 { writer := Writer.broken }
    (NewMarkdownPrinter Writer.broken "o" "r" "main") "now" (buildTree [fileAB] "repo").1
    (some 0)).2.2 0 rfl).1

/-! ## Run -/

/-- C10: when the fetch succeeds, `Run` does the following in order: if the response is
truncated it prints the warning line to standard output, and then, truncated or not, it
calls the printer on the tree built from all entries of the response and returns the
printer's result; without truncation the warning is not printed. -/
theorem run_truncation_warning (a : App) (owner repo ref : String) (resp : TreeResponse)
    (hfetch : a.fetcher owner repo ref = .ok resp) :
    (resp.Truncated = true →
      (a.Run owner repo ref).1 =
        [Event.stdout (truncationWarning ++ "\n"),
         Event.print (buildTree resp.Tree repo).1 (some (buildTree resp.Tree repo).2)]) ∧
    (resp.Truncated = false →
      (a.Run owner repo ref).1 =
        [Event.print (buildTree resp.Tree repo).1 (some (buildTree resp.Tree repo).2)]) ∧
    (a.Run owner repo ref).2 =
      a.printer (buildTree resp.Tree repo).1 (some (buildTree resp.Tree repo).2) := by
  unfold App.Run
  rw [hfetch]
  refine ⟨?_, ?_, rfl⟩
  · intro ht; simp [ht]
  · intro ht; simp [ht]

/-- Witness for C10: a truncated response holding the entry `a/b.txt`. -/
theorem run_truncation_warning_witness :
    ((exampleApp { Sha := "s", URL := "", Tree := [fileAB], Truncated := true }).Run
        "o" "repo" "main").1 =
      [Event.stdout (truncationWarning ++ "\n"),
       Event.print (buildTree [fileAB] "repo").1 (some (buildTree [fileAB] "repo").2)] :=
  (run_truncation_warning (exampleApp { Sha := "s", URL := "", Tree := [fileAB], Truncated := true })
    "o" "repo" "main" { Sha := "s", URL := "", Tree := [fileAB], Truncated := true } rfl).1 rfl

/-! ## The examples of the specification -/

/-- C11: building `[src/main.go (file), README.md (file)]` with root name "repo" and
printing it, with enough fuel, writes exactly the four lines `repo`, `├── src/`,
`│   └── main.go`, `└── README.md`; the directory `src/` comes before the file
`README.md` although "README.md" is less than "src" as a string. -/
theorem example_src_readme (fuel : Nat) (hf : 4 ≤ fuel) :
    (ASCIIPrinter.Print fuel { writer := Writer.reliable } (buildTree [srcMain, readme] "repo").1
        (some (buildTree [srcMain, readme] "repo").2)).2.1.writer.written =
      ["repo\n", "├── src/\n", "│   └── main.go\n", "└── README.md\n"] ∧
    (ASCIIPrinter.Print fuel { writer := Writer.reliable } (buildTree [srcMain, readme] "repo").1
        (some (buildTree [srcMain, readme] "repo").2)).2.1.writer.text =
      "repo\n├── src/\n│   └── main.go\n└── README.md\n" ∧
    "README.md".data < "src".data := by
  have t := built_treeAt [srcMain, readme] "repo"
  have hl : (buildTree [srcMain, readme] "repo").1.length = 4 := by decide
  rw [hl] at t
  have hw := ascii_written_of_treeAt _ _ 4 t fuel hf
  rw [buildTree_root]
  refine ⟨?_, ?_, by decide⟩
  · rw [hw]; decide
  · unfold Writer.text; rw [hw]; decide

/-- Witness for C11: fuel 4. -/
theorem example_src_readme_witness :
    (ASCIIPrinter.Print 4 { writer := Writer.reliable } (buildTree [srcMain, readme] "repo").1
        (some (buildTree [srcMain, readme] "repo").2)).2.1.writer.written =
      ["repo\n", "├── src/\n", "│   └── main.go\n", "└── README.md\n"] :=
  (example_src_readme 4 (by decide)).1

/-- C12: building `[a/b.txt (file), a (directory)]` with root name "repo" yields the
three nodes `repo`, `a` (a directory, the only child of the root) and `b.txt` (a file,
the only child of `a`), and printing it, with enough fuel, writes exactly the three
lines `repo`, `└── a/`, `    └── b.txt`. -/
theorem example_file_then_dir (fuel : Nat) (hf : 3 ≤ fuel) :
    (buildTree [fileAB, dirA] "repo").2 = 0 ∧
    (buildTree [fileAB, dirA] "repo").1.length = 3 ∧
    (read (buildTree [fileAB, dirA] "repo").1 0).Name = "repo" ∧
    (read (buildTree [fileAB, dirA] "repo").1 0).Children = [1] ∧
    (read (buildTree [fileAB, dirA] "repo").1 1).Name = "a" ∧
    (read (buildTree [fileAB, dirA] "repo").1 1).IsDir = true ∧
    (read (buildTree [fileAB, dirA] "repo").1 1).Children = [2] ∧
    (read (buildTree [fileAB, dirA] "repo").1 2).Name = "b.txt" ∧
    (read (buildTree [fileAB, dirA] "repo").1 2).IsDir = false ∧
    (read (buildTree [fileAB, dirA] "repo").1 2).Children = [] ∧
    (ASCIIPrinter.Print fuel { writer := Writer.reliable } (buildTree [fileAB, dirA] "repo").1
        (some (buildTree [fileAB, dirA] "repo").2)).2.1.writer.written =
      ["repo\n", "└── a/\n", "    └── b.txt\n"] := by
  have t := built_treeAt [fileAB, dirA] "repo"
  have hl : (buildTree [fileAB, dirA] "repo").1.length = 3 := by decide
  rw [hl] at t
  have hw := ascii_written_of_treeAt _ _ 3 t fuel hf
  rw [buildTree_root, hw]
  decide

/-- Witness for C12: fuel 3. -/
theorem example_file_then_dir_witness :
    (ASCIIPrinter.Print 3 { writer := Writer.reliable } (buildTree [fileAB, dirA] "repo").1
        (some (buildTree [fileAB, dirA] "repo").2)).2.1.writer.written =
      ["repo\n", "└── a/\n", "    └── b.txt\n"] :=
  (example_file_then_dir 3 (by decide)).2.2.2.2.2.2.2.2.2.2

/-- C13: for every root name, `buildTree` on the empty list returns the heap holding
only the root (the given name, empty path, a directory, no children, no entry), and
`ASCIIPrinter.Print` on it writes exactly one line, the root name, whatever the fuel. -/
theorem example_empty_list (rootName : String) (fuel : Nat) :
    buildTree [] rootName =
      ([{ Name := rootName, Path := "", IsDir := true, Children := [], Meta := none,
          parent := none, childMap := [] }], 0) ∧
    (ASCIIPrinter.Print fuel { writer := Writer.reliable } (buildTree [] rootName).1
        (some (buildTree [] rootName).2)).2.1.writer.written = [rootName ++ "\n"] ∧
    (ASCIIPrinter.Print fuel { writer := Writer.reliable } (buildTree [] rootName).1
        (some (buildTree [] rootName).2)).2.1.writer.text = rootName ++ "\n" := by
  have hw : (ASCIIPrinter.Print fuel { writer := Writer.reliable } (buildTree [] rootName).1
      (some (buildTree [] rootName).2)).2.1.writer.written = [rootName ++ "\n"] := by
    rw [ascii_written]
    have h1 : (read (buildTree [] rootName).1 (buildTree [] rootName).2).Name = rootName := rfl
    rw [h1, specLines_leaf _ _ _ _ _ rfl]
  refine ⟨rfl, hw, ?_⟩
  unfold Writer.text
  rw [hw, join_singleton]

/-! ## The child index -/

theorem grown_wf {h : Heap} (g : Grown h) : WF h ∧ 0 < h.length := by
  induction g with
  | start name path isDir => exact ⟨wf_root _ rfl rfl, by simp [NewNode]⟩
  | insert h blob _ ih =>
    have p := insertPath_post blob 0 h ih.1 ih.2
    exact ⟨p.wf, Nat.lt_of_lt_of_le ih.2 p.frame.len_le⟩

theorem grown_buildTree (blobs : List GitBlob) (rootName : String) :
    Grown (buildTree blobs rootName).1 := by
  have key : ∀ (l : List GitBlob) (h : Heap), Grown h →
      Grown (l.foldl (fun h blob => insertPath h 0 blob) h) := by
    intro l
    induction l with
    | nil => intro h g; exact g
    | cons e l ih => intro h g; exact ih _ (Grown.insert h e g)
  exact key blobs _ (Grown.start rootName "" true)

/-- C14: in every heap reached by `NewNode` followed by `insertPath` calls, hence in
every heap returned by `buildTree`, the children of every node have pairwise distinct
names, `GetChild` returns a node exactly when it is a member of `Children` with that
name, and it returns nil exactly when no child has that name. -/
theorem childMap_in_sync :
    (∀ blobs rootName, Grown (buildTree blobs rootName).1) ∧
    ∀ h, Grown h → ∀ n,
      ((read h n).Children.map (fun c => (read h c).Name)).Nodup ∧
      (∀ name c, GetChild h n name = some c ↔
        (c ∈ (read h n).Children ∧ (read h c).Name = name)) ∧
      (∀ name, GetChild h n name = none ↔
        ∀ c ∈ (read h n).Children, (read h c).Name ≠ name) := by
  refine ⟨grown_buildTree, ?_⟩
  intro h g n
  have wf := (grown_wf g).1
  refine ⟨wf.names_nodup n, wf.sync n, ?_⟩
  intro name
  constructor
  · intro hn c hc hname
    have := (wf.sync n name c).2 ⟨hc, hname⟩
    rw [hn] at this; cases this
  · intro hall
    cases hg : GetChild h n name with
    | none => rfl
    | some c =>
      have := (wf.sync n name c).1 hg
      exact absurd this.2 (hall c this.1)

/-- Witness for C14: the heap of `[a/b.txt, a]` and its root. -/
theorem childMap_in_sync_witness :
    ∀ name c, GetChild (buildTree [fileAB, dirA] "repo").1 0 name = some c ↔
      (c ∈ (read (buildTree [fileAB, dirA] "repo").1 0).Children ∧
        (read (buildTree [fileAB, dirA] "repo").1 c).Name = name) :=
  (childMap_in_sync.2 (buildTree [fileAB, dirA] "repo").1
    (childMap_in_sync.1 [fileAB, dirA] "repo") 0).2.1

/-! ## The frame of insertPath -/

/-- C15: `insertPath` on a well-formed tree leaves every node that existed before with
the same `Name`, `Path`, `IsDir` and `Meta`, keeps its previous `Children` as a prefix of
its new `Children`, and removes no node. -/
theorem insertPath_frame (h : Heap) (r : Nat) (blob : GitBlob) (wf : WF h)
    (hr : r < h.length) :
    h.length ≤ (insertPath h r blob).length ∧
    ∀ p, p < h.length →
      (read (insertPath h r blob) p).Name = (read h p).Name ∧
      (read (insertPath h r blob) p).Path = (read h p).Path ∧
      (read (insertPath h r blob) p).IsDir = (read h p).IsDir ∧
      (read (insertPath h r blob) p).Meta = (read h p).Meta ∧
      (read h p).Children <+: (read (insertPath h r blob) p).Children := by
  have f := (insertPath_post blob r h wf hr).frame
  exact ⟨f.len_le, fun p hp => ⟨f.name p hp, f.path p hp, f.isDir p hp, f.keepMeta p hp,
    f.children p hp⟩⟩

/-- Witness for C15: inserting the entry `a` into the tree of `[a/b.txt]`. -/
theorem insertPath_frame_witness :
    (read (insertPath (buildTree [fileAB] "repo").1 0 dirA) 1).Meta =
      (read (buildTree [fileAB] "repo").1 1).Meta :=
  ((insertPath_frame (buildTree [fileAB] "repo").1 0 dirA (buildTree_built [fileAB] "repo").wf
    (by decide)).2 1 (by decide)).2.2.2.1

/-! ## Entries with the same path -/

theorem splitChars_ne_nil (sep : Char) (l : List Char) : splitChars sep l ≠ [] := by
  cases l with
  | nil => simp [splitChars]
  | cons c cs =>
    rw [splitChars]
    split_ifs
    · simp
    · cases splitChars sep cs <;> simp

theorem split_ne_nil (p : String) : Split p ≠ [] := by
  unfold Split
  simpa using splitChars_ne_nil '/' p.data

theorem segments_ne_nil_of_endsAt {e : GitBlob} {s : List String} (h : endsAt e s = true) :
    s ≠ [] := by
  unfold endsAt finalIn at h
  simp only [Bool.and_eq_true, decide_eq_true_eq] at h
  obtain ⟨h1, h2⟩ := h
  intro hs
  subst hs
  obtain ⟨l, a, hl⟩ := (List.eq_nil_or_concat (Split e.Path)).resolve_left (split_ne_nil _)
  rw [hl, List.concat_eq_append] at h1 h2
  rw [List.getLast?_append] at h2
  simp only [List.filter_append, List.append_eq_nil] at h1
  have ha : a = "" := by
    have := h1.2
    simp only [List.filter_eq_nil_iff, List.mem_singleton, decide_eq_true_eq, forall_eq,
      not_not] at this
    exact this
  subst ha
  simp at h2

/-- C16, as stated, fails: `[a (file), a (directory)]` holds two entries with the path
`a`, and the node for that path keeps the first one as `Meta`, not the last. -/
theorem last_write_wins_counterexample :
    fileA.Path = dirA.Path ∧
    descend (buildTree [fileA, dirA] "repo").1 (buildTree [fileA, dirA] "repo").2
      (segments dirA.Path) = [1] ∧
    (read (buildTree [fileA, dirA] "repo").1 1).Meta = some fileA ∧
    (read (buildTree [fileA, dirA] "repo").1 1).Meta ≠ some dirA := by
  decide

/-- C16, amended (first write wins): if no entry before `e1` in the list passes through
the segments of `e1`, and the path of `e1` ends with a non-empty part, then the node for
that path has `Meta = e1`, whatever entries follow, entries with the same path
included. -/
theorem first_write_wins (pre rest : List GitBlob) (e1 : GitBlob) (rootName : String)
    (hpre : ∀ e ∈ pre, ¬ segments e1.Path <+: segments e.Path)
    (hend : endsAt e1 (segments e1.Path) = true) :
    ∃ n, descend (buildTree (pre ++ e1 :: rest) rootName).1
        (buildTree (pre ++ e1 :: rest) rootName).2 (segments e1.Path) = [n] ∧
      (read (buildTree (pre ++ e1 :: rest) rootName).1 n).Meta = some e1 := by
  have b := buildTree_built (pre ++ e1 :: rest) rootName
  have hs := segments_ne_nil_of_endsAt hend
  rw [buildTree_root]
  obtain ⟨n, hn⟩ := Option.isSome_iff_exists.1
    ((b.paths _ hs).2 ⟨e1, by simp, List.prefix_refl _⟩)
  obtain ⟨e0, hf, -, -, hmeta, -⟩ := b.fields _ n hs hn
  have hfirst : firstThrough (pre ++ e1 :: rest) (segments e1.Path) = some e1 := by
    rw [firstThrough_append, (firstThrough_none pre _).2 hpre]
    have hself : (segments e1.Path).isPrefixOf (segments e1.Path) = true := by
      rw [List.isPrefixOf_iff_prefix]
    simp [firstThrough, List.find?, hself]
  rw [hfirst] at hf
  cases hf
  refine ⟨n, (b.wf.descend_single 0 _ n).2 hn, ?_⟩
  rw [hmeta, if_pos hend]

/-- Witness for the amended C16: the list `[a (file), a (directory)]`. -/
theorem first_write_wins_witness :
    ∃ n, descend (buildTree ([] ++ fileA :: [dirA]) "repo").1
        (buildTree ([] ++ fileA :: [dirA]) "repo").2 (segments fileA.Path) = [n] ∧
      (read (buildTree ([] ++ fileA :: [dirA]) "repo").1 n).Meta = some fileA :=
  first_write_wins [] [dirA] fileA "repo" (by simp) (by decide)

/-! ## Paths with empty parts -/

/-- C17 on the code: for the entry `/a` the node `a`, reached from the root by the name
`a`, has `Path` "/a" and not "a"; for the entry `a//b` the node `b`, reached by the names
`a`, `b`, has `Path` "a//b" and not "a/b". -/
theorem path_keeps_empty_parts :
    descend (buildTree [slashA] "repo").1 (buildTree [slashA] "repo").2 ["a"] = [1] ∧
    (read (buildTree [slashA] "repo").1 1).Name = "a" ∧
    (read (buildTree [slashA] "repo").1 1).Path = "/a" ∧
    Join ["a"] = "a" ∧
    descend (buildTree [fileAslashslashB] "repo").1 (buildTree [fileAslashslashB] "repo").2
      ["a", "b"] = [2] ∧
    (read (buildTree [fileAslashslashB] "repo").1 2).Path = "a//b" ∧
    Join ["a", "b"] = "a/b" := by
  decide

/-- C18 on the code: the file entry `a/`, whose only non-empty segment is `a`, inserted
into a tree holding only the root, creates the node `a` with `IsDir = true` and no
`Meta`, although its type is not "tree". -/
theorem trailing_slash_entry :
    segments fileAslash.Path = ["a"] ∧ fileAslash.Typ ≠ "tree" ∧
    descend (insertPath (NewNode [] "repo" "" true).1 0 fileAslash) 0 ["a"] = [1] ∧
    (read (insertPath (NewNode [] "repo" "" true).1 0 fileAslash) 1).IsDir = true ∧
    (read (insertPath (NewNode [] "repo" "" true).1 0 fileAslash) 1).Meta = none := by
  decide

/-! ## Rendering and the tree -/

/-- C19, as stated, fails: the root of the tree of `[b, a]` has the children in the
order `b`, `a` before `ASCIIPrinter.Print` and in the order `a`, `b` after it. -/
theorem print_read_only_counterexample :
    (read (buildTree [fileB, fileA] "repo").1 0).Children = [1, 2] ∧
    (read (ASCIIPrinter.Print 3 { writer := Writer.reliable } (buildTree [fileB, fileA] "repo").1
      (some 0)).1 0).Children = [2, 1] ∧
    (read (MarkdownPrinter.Print 3 (NewMarkdownPrinter Writer.reliable "o" "r" "main") "now"
      (buildTree [fileB, fileA] "repo").1 (some 0)).1 0).Children = [2, 1] := by
  decide

theorem sim_fields {h g : Heap} (s : Sim h g) (n : Nat) :
    (read g n).Name = (read h n).Name ∧ (read g n).Path = (read h n).Path ∧
    (read g n).IsDir = (read h n).IsDir ∧ (read g n).Meta = (read h n).Meta ∧
    (read g n).Children.Perm (read h n).Children ∧
    ((read g n).Children = (read h n).Children ∨
      (read g n).Children.Pairwise (fun a b => less h b a = false)) := by
  have h1 := (s.2 n).1
  refine ⟨by rw [h1], by rw [h1], by rw [h1], by rw [h1], ?_, ?_⟩
  · rcases (s.2 n).2 with h2 | h2
    · rw [h2]
    · rw [h2]; exact sortedChildren_perm h n
  · rcases (s.2 n).2 with h2 | h2
    · exact Or.inl h2
    · rw [h2]; exact Or.inr (sortedChildren_sorted h n)

/-- C19, amended: rendering changes the tree only by reordering `Children`: after
`ASCIIPrinter.Print` or `MarkdownPrinter.Print` the heap has the same nodes, every node
has the same `Name`, `Path`, `IsDir` and `Meta`, and its `Children` are a permutation of
the previous ones, either unchanged or sorted under the comparison of `sortChildren`
(no child is less than an earlier one: directories first, then by name). -/
theorem print_reorders_children_only (fuel : Nat) (p : ASCIIPrinter) (q : MarkdownPrinter)
    (now : String) (h : Heap) (root : Option Nat) :
    ((ASCIIPrinter.Print fuel p h root).1.length = h.length ∧
      ∀ n, (read (ASCIIPrinter.Print fuel p h root).1 n).Name = (read h n).Name ∧
        (read (ASCIIPrinter.Print fuel p h root).1 n).Path = (read h n).Path ∧
        (read (ASCIIPrinter.Print fuel p h root).1 n).IsDir = (read h n).IsDir ∧
        (read (ASCIIPrinter.Print fuel p h root).1 n).Meta = (read h n).Meta ∧
        (read (ASCIIPrinter.Print fuel p h root).1 n).Children.Perm (read h n).Children ∧
        ((read (ASCIIPrinter.Print fuel p h root).1 n).Children = (read h n).Children ∨
          (read (ASCIIPrinter.Print fuel p h root).1 n).Children.Pairwise
            (fun a b => less h b a = false))) ∧
    ((MarkdownPrinter.Print fuel q now h root).1.length = h.length ∧
      ∀ n, (read (MarkdownPrinter.Print fuel q now h root).1 n).Name = (read h n).Name ∧
        (read (MarkdownPrinter.Print fuel q now h root).1 n).Path = (read h n).Path ∧
        (read (MarkdownPrinter.Print fuel q now h root).1 n).IsDir = (read h n).IsDir ∧
        (read (MarkdownPrinter.Print fuel q now h root).1 n).Meta = (read h n).Meta ∧
        (read (MarkdownPrinter.Print fuel q now h root).1 n).Children.Perm
          (read h n).Children ∧
        ((read (MarkdownPrinter.Print fuel q now h root).1 n).Children = (read h n).Children ∨
          (read (MarkdownPrinter.Print fuel q now h root).1 n).Children.Pairwise
            (fun a b => less h b a = false))) := by
  cases root with
  | none =>
    exact ⟨⟨rfl, fun n => sim_fields (sim_refl h) n⟩, ⟨rfl, fun n => sim_fields (sim_refl h) n⟩⟩
  | some r =>
    obtain ⟨g1, hg1, s1⟩ := ascii_print_spec fuel p h r
    obtain ⟨g2, hg2, s2⟩ := markdown_print_spec fuel q now h r
    rw [hg1, hg2]
    exact ⟨⟨s1.1, fun n => sim_fields s1 n⟩, ⟨s2.1, fun n => sim_fields s2 n⟩⟩

/-! ## Split is injective -/

theorem splitChars_inj (sep : Char) :
    ∀ l1 l2 : List Char, splitChars sep l1 = splitChars sep l2 → l1 = l2 := by
  intro l1
  induction l1 with
  | nil =>
    intro l2 h
    cases l2 with
    | nil => rfl
    | cons c cs =>
      exfalso
      rw [splitChars, splitChars] at h
      by_cases hc : c = sep
      · rw [if_pos hc] at h
        simp at h
        exact splitChars_ne_nil sep cs h
      · rw [if_neg hc] at h
        obtain ⟨p, ps, hp⟩ := List.exists_cons_of_ne_nil (splitChars_ne_nil sep cs)
        rw [hp] at h
        simp at h
  | cons c cs ih =>
    intro l2 h
    obtain ⟨p, ps, hp⟩ := List.exists_cons_of_ne_nil (splitChars_ne_nil sep cs)
    cases l2 with
    | nil =>
      exfalso
      rw [splitChars, splitChars] at h
      by_cases hc : c = sep
      · rw [if_pos hc] at h
        simp at h
        exact splitChars_ne_nil sep cs h
      · rw [if_neg hc, hp] at h
        simp at h
    | cons c' cs' =>
      obtain ⟨p', ps', hp'⟩ := List.exists_cons_of_ne_nil (splitChars_ne_nil sep cs')
      rw [splitChars, splitChars] at h
      by_cases hc : c = sep <;> by_cases hc' : c' = sep
      · rw [if_pos hc, if_pos hc'] at h
        simp at h
        rw [ih cs' h, hc, hc']
      · rw [if_pos hc, if_neg hc', hp'] at h
        simp at h
      · rw [if_neg hc, if_pos hc', hp] at h
        simp at h
      · rw [if_neg hc, if_neg hc', hp, hp'] at h
        simp at h
        obtain ⟨⟨h1, h2⟩, h3⟩ := h
        have : splitChars sep cs = splitChars sep cs' := by rw [hp, hp', h2, h3]
        rw [ih cs' this, h1]

theorem split_inj (p q : String) (h : Split p = Split q) : p = q := by
  unfold Split at h
  have h1 : splitChars '/' p.data = splitChars '/' q.data := by
    apply List.map_injective_iff.2 _ h
    intro a b hab
    exact congrArg String.data hab
  exact String.ext (splitChars_inj '/' _ _ h1)

/-! ## The directory flag in a well-formed list -/

theorem segments_eq_split {p : String} (h : "" ∉ Split p) : segments p = Split p := by
  unfold segments
  rw [List.filter_eq_self]
  intro a ha
  have : a ≠ "" := fun e => h (e ▸ ha)
  simpa using this

theorem endsAt_iff {e : GitBlob} (h : "" ∉ Split e.Path) (t : List String) :
    endsAt e t = true ↔ segments e.Path = t := by
  unfold endsAt finalIn
  have hseg : (Split e.Path).filter (fun x => x ≠ "") = segments e.Path := rfl
  rw [hseg]
  have hlast : (Split e.Path).getLast? ≠ some "" := by
    intro hl
    exact h (List.mem_of_getLast?_eq_some hl)
  simp [hlast]

/-- In a well-formed list all entries through a path give it the same directory flag. -/
theorem WellFormed.flag_eq {blobs : List GitBlob} (w : WellFormed blobs) {e e' : GitBlob}
    (he : e ∈ blobs) (he' : e' ∈ blobs) {t : List String} (ht : t <+: segments e.Path)
    (ht' : t <+: segments e'.Path) :
    (e.Typ == "tree" || !endsAt e t) = (e'.Typ == "tree" || !endsAt e' t) := by
  obtain ⟨w1, w2, w3⟩ := w
  have h1 := endsAt_iff (w1 e he).2 t
  have h1' := endsAt_iff (w1 e' he').2 t
  by_cases hs : segments e.Path = t <;> by_cases hs' : segments e'.Path = t
  · have hp : e.Path = e'.Path := by
      apply split_inj
      rw [← segments_eq_split (w1 e he).2, ← segments_eq_split (w1 e' he').2, hs, hs']
    have := w2 e he e' he' hp
    have a1 : endsAt e t = true := h1.2 hs
    have a2 : endsAt e' t = true := h1'.2 hs'
    rw [a1, a2]
    by_cases htree : e.Typ = "tree"
    · simp [htree, this.1 htree]
    · have : ¬ e'.Typ = "tree" := fun x => htree (this.2 x)
      simp [htree, this]
  · have a2 : endsAt e' t = false := by
      rw [Bool.eq_false_iff]; exact fun x => hs' (h1'.1 x)
    have htree : e.Typ = "tree" := w3 e he e' he' (hs ▸ ht') (by rw [hs]; exact Ne.symm hs')
    simp [a2, htree]
  · have a1 : endsAt e t = false := by
      rw [Bool.eq_false_iff]; exact fun x => hs (h1.1 x)
    have htree : e'.Typ = "tree" := w3 e' he' e he (hs' ▸ ht) (by rw [hs']; exact Ne.symm hs)
    simp [a1, htree]
  · have a1 : endsAt e t = false := by
      rw [Bool.eq_false_iff]; exact fun x => hs (h1.1 x)
    have a2 : endsAt e' t = false := by
      rw [Bool.eq_false_iff]; exact fun x => hs' (h1'.1 x)
    simp [a1, a2]

/-! ## Two heaps with the same paths and flags render alike -/

theorem WF.child_walk {h : Heap} (wf : WF h) {r n c : Nat} {s : List String}
    (hw : walk h r s = some n) (hc : c ∈ (read h n).Children) :
    walk h r (s ++ [(read h c).Name]) = some c :=
  (walk_snoc h r s _ c).2 ⟨n, hw, (wf.sync n _ c).2 ⟨hc, rfl⟩⟩

theorem WF.walk_child {h : Heap} (wf : WF h) {r n c : Nat} {s : List String} {x : String}
    (hw : walk h r s = some n) (hc : walk h r (s ++ [x]) = some c) :
    c ∈ (read h n).Children ∧ (read h c).Name = x := by
  obtain ⟨p, hp, hg⟩ := (walk_snoc h r s x c).1 hc
  rw [hw] at hp
  cases hp
  exact (wf.sync n x c).1 hg

theorem keyBefore_asymm (a b : Bool × String) (h1 : keyBefore a b) (h2 : keyBefore b a) :
    False := by
  obtain ⟨a1, a2⟩ := h1
  obtain ⟨b1, b2⟩ := h2
  by_cases he : a.1 = b.1
  · exact lt_asymm (a2 he) (b2 he.symm)
  · cases ha : a.1 <;> cases hb : b.1 <;> simp_all

theorem WF.sortKeys_sorted {h : Heap} (wf : WF h) (n : Nat) :
    ((sortedChildren h n).map (sortKey h)).Pairwise keyBefore := by
  rw [List.pairwise_map]
  exact wf.sortedChildren_order n

theorem mem_sortKeys {h : Heap} (n : Nat) (k : Bool × String) :
    k ∈ (sortedChildren h n).map (sortKey h) ↔
      ∃ c ∈ (read h n).Children, sortKey h c = k := by
  rw [List.mem_map]
  constructor
  · rintro ⟨c, hc, hk⟩; exact ⟨c, mem_sortedChildren h n c hc, hk⟩
  · rintro ⟨c, hc, hk⟩; exact ⟨c, (sortedChildren_perm h n).mem_iff.2 hc, hk⟩

theorem sortKeys_subset {h1 h2 : Heap} (wf1 : WF h1) (wf2 : WF h2)
    (hp : ∀ s, s ≠ [] → (walk h1 0 s).isSome → (walk h2 0 s).isSome)
    (hd : ∀ s n1 n2, s ≠ [] → walk h1 0 s = some n1 → walk h2 0 s = some n2 →
      (read h1 n1).IsDir = (read h2 n2).IsDir)
    {s : List String} {n1 n2 : Nat} (w1 : walk h1 0 s = some n1) (w2 : walk h2 0 s = some n2)
    (k : Bool × String) (hk : k ∈ (sortedChildren h1 n1).map (sortKey h1)) :
    k ∈ (sortedChildren h2 n2).map (sortKey h2) := by
  rw [mem_sortKeys] at hk ⊢
  obtain ⟨c1, hc1, rfl⟩ := hk
  have hw1 := wf1.child_walk w1 hc1
  have hne : s ++ [(read h1 c1).Name] ≠ [] := by simp
  obtain ⟨c2, hw2⟩ := Option.isSome_iff_exists.1 (hp _ hne (by simp [hw1]))
  have h2 := wf2.walk_child w2 hw2
  refine ⟨c2, h2.1, ?_⟩
  unfold sortKey
  rw [h2.2, hd _ c1 c2 hne hw1 hw2]

/-- At the same path the two heaps have the same sequence of sort keys in printing
order. -/
theorem sortKeys_eq {h1 h2 : Heap} (wf1 : WF h1) (wf2 : WF h2)
    (hp : ∀ s, s ≠ [] → ((walk h1 0 s).isSome ↔ (walk h2 0 s).isSome))
    (hd : ∀ s n1 n2, s ≠ [] → walk h1 0 s = some n1 → walk h2 0 s = some n2 →
      (read h1 n1).IsDir = (read h2 n2).IsDir)
    {s : List String} {n1 n2 : Nat} (w1 : walk h1 0 s = some n1) (w2 : walk h2 0 s = some n2) :
    (sortedChildren h1 n1).map (sortKey h1) = (sortedChildren h2 n2).map (sortKey h2) := by
  have s1 := wf1.sortKeys_sorted n1
  have s2 := wf2.sortKeys_sorted n2
  have irr : ∀ {a b : Bool × String}, keyBefore a b → a ≠ b := by
    intro a b hab e
    subst e
    exact keyBefore_asymm a a hab hab
  have nd1 : ((sortedChildren h1 n1).map (sortKey h1)).Nodup := s1.imp irr
  have nd2 : ((sortedChildren h2 n2).map (sortKey h2)).Nodup := s2.imp irr
  have hperm : ((sortedChildren h1 n1).map (sortKey h1)).Perm
      ((sortedChildren h2 n2).map (sortKey h2)) := by
    rw [List.perm_ext_iff_of_nodup nd1 nd2]
    intro k
    constructor
    · exact sortKeys_subset wf1 wf2 (fun s hs => (hp s hs).1) hd w1 w2 k
    · exact sortKeys_subset wf2 wf1 (fun s hs => (hp s hs).2)
        (fun s n2 n1 hs a b => (hd s n1 n2 hs b a).symm) w2 w1 k
  haveI : IsAntisymm (Bool × String) keyBefore :=
    ⟨fun a b hab hba => (keyBefore_asymm a b hab hba).elim⟩
  exact List.eq_of_perm_of_sorted hperm s1 s2

theorem specLoop_iso (h1 h2 : Heap) (sub1 sub2 : List Bool → Nat → List String)
    (flags : List Bool) :
    ∀ l1 l2 : List Nat, l1.map (sortKey h1) = l2.map (sortKey h2) →
      (∀ c1 ∈ l1, ∀ c2 ∈ l2, sortKey h1 c1 = sortKey h2 c2 → ∀ f, sub1 f c1 = sub2 f c2) →
      specLoop h1 sub1 flags l1 = specLoop h2 sub2 flags l2 := by
  intro l1
  induction l1 with
  | nil =>
    intro l2 hk _
    cases l2 with
    | nil => rfl
    | cons a l => simp at hk
  | cons c1 l1 ih =>
    intro l2 hk hsub
    cases l2 with
    | nil => simp at hk
    | cons c2 l2 =>
      simp only [List.map_cons, List.cons.injEq] at hk
      obtain ⟨hkey, hrest⟩ := hk
      have hname : displayName h1 c1 = displayName h2 c2 := by
        unfold sortKey at hkey
        simp only [Prod.mk.injEq] at hkey
        unfold displayName
        rw [hkey.1, hkey.2]
      have hemp : l1.isEmpty = l2.isEmpty := by
        have := congrArg List.length hrest
        simp only [List.length_map] at this
        cases l1 <;> cases l2 <;> simp_all
      rw [specLoop, specLoop, hname, hemp,
        hsub c1 (List.mem_cons_self _ _) c2 (List.mem_cons_self _ _) hkey,
        ih l2 hrest (fun a ha b hb => hsub a (List.mem_cons_of_mem _ ha) b
          (List.mem_cons_of_mem _ hb))]

/-- Two well-formed heaps with the same paths and the same directory flags at each path
give the same lines below the nodes at the same path. -/
theorem specLines_iso {h1 h2 : Heap} (wf1 : WF h1) (wf2 : WF h2)
    (hp : ∀ s, s ≠ [] → ((walk h1 0 s).isSome ↔ (walk h2 0 s).isSome))
    (hd : ∀ s n1 n2, s ≠ [] → walk h1 0 s = some n1 → walk h2 0 s = some n2 →
      (read h1 n1).IsDir = (read h2 n2).IsDir) :
    ∀ (d : Nat) (flags : List Bool) (s : List String) (n1 n2 : Nat),
      walk h1 0 s = some n1 → walk h2 0 s = some n2 →
      specLines h1 (sortedChildren h1) d flags n1 =
        specLines h2 (sortedChildren h2) d flags n2 := by
  intro d
  induction d with
  | zero => intro flags s n1 n2 _ _; rfl
  | succ d ih =>
    intro flags s n1 n2 w1 w2
    rw [specLines, specLines]
    apply specLoop_iso h1 h2 _ _ flags _ _ (sortKeys_eq wf1 wf2 hp hd w1 w2)
    intro c1 hc1 c2 hc2 hkey f
    have m1 := mem_sortedChildren h1 n1 c1 hc1
    have m2 := mem_sortedChildren h2 n2 c2 hc2
    have hname : (read h1 c1).Name = (read h2 c2).Name := by
      unfold sortKey at hkey
      simp only [Prod.mk.injEq] at hkey
      exact hkey.2
    have u1 := wf1.child_walk w1 m1
    have u2 := wf2.child_walk w2 m2
    rw [← hname] at u2
    exact ih f _ c1 c2 u1 u2

/-! ## The rendering does not depend on the order of the entries -/

theorem built_same_paths {blobs blobs' : List GitBlob} {rootName : String} {h1 h2 : Heap}
    (b : Built blobs rootName h1) (b' : Built blobs' rootName h2) (hp : blobs.Perm blobs')
    (s : List String) (hs : s ≠ []) : (walk h1 0 s).isSome ↔ (walk h2 0 s).isSome := by
  rw [b.paths s hs, b'.paths s hs]
  constructor
  · rintro ⟨e, he, hpre⟩; exact ⟨e, hp.mem_iff.1 he, hpre⟩
  · rintro ⟨e, he, hpre⟩; exact ⟨e, hp.mem_iff.2 he, hpre⟩

theorem built_same_flags {blobs blobs' : List GitBlob} {rootName : String} {h1 h2 : Heap}
    (b : Built blobs rootName h1) (b' : Built blobs' rootName h2) (hp : blobs.Perm blobs')
    (w : WellFormed blobs) (s : List String) (n1 n2 : Nat) (hs : s ≠ [])
    (w1 : walk h1 0 s = some n1) (w2 : walk h2 0 s = some n2) :
    (read h1 n1).IsDir = (read h2 n2).IsDir := by
  obtain ⟨e0, hf, -, hdir, -, -⟩ := b.fields s n1 hs w1
  obtain ⟨e1, hf', -, hdir', -, -⟩ := b'.fields s n2 hs w2
  obtain ⟨m0, p0⟩ := firstThrough_some hf
  obtain ⟨m1, p1⟩ := firstThrough_some hf'
  rw [hdir, hdir']
  exact w.flag_eq m0 (hp.mem_iff.2 m1) p0 p1

/-- C20: for a well-formed entry list and any permutation of it, the text written by
`ASCIIPrinter.Print` for the tree built from the permuted list is the text written for
the tree built from the original list, with enough fuel for each tree. -/
theorem render_order_independent (blobs blobs' : List GitBlob) (rootName : String)
    (hp : blobs.Perm blobs') (w : WellFormed blobs) (fuel fuel' : Nat)
    (hf : (buildTree blobs rootName).1.length ≤ fuel)
    (hf' : (buildTree blobs' rootName).1.length ≤ fuel') :
    (ASCIIPrinter.Print fuel' { writer := Writer.reliable } (buildTree blobs' rootName).1
        (some (buildTree blobs' rootName).2)).2.1.writer.text =
    (ASCIIPrinter.Print fuel { writer := Writer.reliable } (buildTree blobs rootName).1
        (some (buildTree blobs rootName).2)).2.1.writer.text := by
  have b := buildTree_built blobs rootName
  have b' := buildTree_built blobs' rootName
  have t := built_treeAt blobs rootName
  have t' := built_treeAt blobs' rootName
  unfold Writer.text
  rw [buildTree_root, buildTree_root, ascii_written, ascii_written, b.rootName, b'.rootName]
  have e1 : specLines (buildTree blobs rootName).1 (sortedChildren (buildTree blobs rootName).1)
      fuel [] 0 = specLines (buildTree blobs rootName).1
        (sortedChildren (buildTree blobs rootName).1) (fuel + fuel') [] 0 :=
    specLines_stable _ _ (mem_sortedChildren _) t _ _ [] (by omega) (by omega)
  have e2 : specLines (buildTree blobs' rootName).1
      (sortedChildren (buildTree blobs' rootName).1) fuel' [] 0 =
      specLines (buildTree blobs' rootName).1
        (sortedChildren (buildTree blobs' rootName).1) (fuel + fuel') [] 0 :=
    specLines_stable _ _ (mem_sortedChildren _) t' _ _ [] (by omega) (by omega)
  rw [e1, e2]
  rw [specLines_iso b.wf b'.wf (built_same_paths b b' hp)
    (fun s n1 n2 hs w1 w2 => built_same_flags b b' hp w s n1 n2 hs w1 w2)
    (fuel + fuel') [] [] 0 0 rfl rfl]

theorem wellFormed_example : WellFormed [fileAB, dirA] := by
  unfold WellFormed
  decide

/-- Witness for C20: the list `[a/b.txt, a]` and its permutation `[a, a/b.txt]`. -/
theorem render_order_independent_witness :
    (ASCIIPrinter.Print 3 { writer := Writer.reliable } (buildTree [dirA, fileAB] "repo").1
        (some (buildTree [dirA, fileAB] "repo").2)).2.1.writer.text =
    (ASCIIPrinter.Print 3 { writer := Writer.reliable } (buildTree [fileAB, dirA] "repo").1
        (some (buildTree [fileAB, dirA] "repo").2)).2.1.writer.text :=
  render_order_independent [fileAB, dirA] [dirA, fileAB] "repo" (List.Perm.swap _ _ _)
    wellFormed_example 3 3 (by decide) (by decide)

end Genghtree
